import Mathlib

/-!
Verification of the cquver generator (NestJS DDD/CQRS boilerplate CLI).

The TypeScript sources are shallowly embedded here.  JS strings are modelled
as lists of code points (`List Nat`); every string operation used by the
sources (`toLowerCase`, `toUpperCase`, `includes`, `replace` with a string
pattern, `split`, `trim`, the few regular expressions the code relies on) is
embedded with its JS semantics on the ASCII range, which is the range all
analysed inputs live in.
-/

namespace Cquver

/-- Code points of a Lean string literal, our model of a JS string. -/
def str (s : String) : List Nat := s.data.map Char.toNat

/-- ASCII uppercase letter. -/
def isUpperCh (c : Nat) : Bool := 65 ≤ c && c ≤ 90

/-- ASCII lowercase letter. -/
def isLowerCh (c : Nat) : Bool := 97 ≤ c && c ≤ 122

/-- ASCII digit. -/
def isDigitCh (c : Nat) : Bool := 48 ≤ c && c ≤ 57

/-- Character class `[a-zA-Z0-9]` of the PascalCase test regex. -/
def isAlnumCh (c : Nat) : Bool := isUpperCh c || isLowerCh c || isDigitCh c

/-- Whitespace as matched by the JS `\s` class, ASCII range. -/
def isSpaceCh (c : Nat) : Bool := c = 32 || c = 9 || c = 10 || c = 11 || c = 12 || c = 13

/-- Word character, the JS `\w` class. -/
def isWordCh (c : Nat) : Bool := isUpperCh c || isLowerCh c || isDigitCh c || c = 95

/-- JS `String.prototype.toUpperCase` on one character (ASCII range). -/
def upCh (c : Nat) : Nat := if isLowerCh c then c - 32 else c

/-- JS `String.prototype.toLowerCase` on one character (ASCII range). -/
def lowCh (c : Nat) : Nat := if isUpperCh c then c + 32 else c

/-- JS `String.prototype.includes`: `pat` occurs as a contiguous substring. -/
def containsSub : List Nat → List Nat → Bool
  | h, p =>
    if p.isPrefixOf h then true
    else match h with
      | [] => false
      | _ :: t => containsSub t p

/-- Number of positions of `h` at which `pat` occurs (occurrences may overlap). -/
def countSub : List Nat → List Nat → Nat
  | h, p =>
    (if p.isPrefixOf h then 1 else 0) +
      match h with
      | [] => 0
      | _ :: t => countSub t p

/-- JS `String.prototype.replace` with a string pattern: replace the first
occurrence of `pat` (the replacement contains no `$` patterns). -/
def replaceFirst : List Nat → List Nat → List Nat → List Nat
  | s, pat, rep =>
    if pat.isPrefixOf s then rep ++ s.drop pat.length
    else match s with
      | [] => []
      | c :: t => c :: replaceFirst t pat rep

/-- `a` is a (not necessarily contiguous) subsequence of `b`; an edit that only
inserts text leaves the original as such a subsequence. -/
def isSubseq : List Nat → List Nat → Bool
  | [], _ => true
  | _ :: _, [] => false
  | a :: as, b :: bs => if a = b then isSubseq as bs else isSubseq (a :: as) bs

/-- `deno std path.join` on well-formed relative segments. -/
def pathJoin (segs : List (List Nat)) : List Nat := List.intercalate (str "/") segs

/-! ## utils.ts -/

/-- First regex pass of `toKebabCase` fires between a lowercase letter or digit
and an uppercase letter (`/([a-z0-9])([A-Z])/g`). -/
def fire1 (a b : Nat) : Bool := (isLowerCh a || isDigitCh a) && isUpperCh b

/-- Global replacement `/([a-z0-9])([A-Z])/g → '$1-$2'` of `toKebabCase`. -/
def rule1 : List Nat → List Nat
  | [] => []
  | [a] => [a]
  | a :: b :: rest =>
    if fire1 a b then a :: 45 :: b :: rule1 rest else a :: rule1 (b :: rest)

/-- Second regex pass of `toKebabCase` fires on upper, upper, lower
(`/([A-Z])([A-Z][a-z])/g`). -/
def fire2 (a b c : Nat) : Bool := isUpperCh a && isUpperCh b && isLowerCh c

/-- Global replacement `/([A-Z])([A-Z][a-z])/g → '$1-$2'` of `toKebabCase`. -/
def rule2 : List Nat → List Nat
  | [] => []
  | [a] => [a]
  | [a, b] => [a, b]
  | a :: b :: c :: rest =>
    if fire2 a b c then a :: 45 :: b :: c :: rule2 rest
    else a :: rule2 (b :: c :: rest)

/-- The final `replace` of `toKebabCase` strips one leading dash. -/
def stripLeadDash : List Nat → List Nat
  | 45 :: t => t
  | s => s

/-- `toKebabCase` from `src/utils.ts`. -/
def toKebabCase (s : List Nat) : List Nat :=
  stripLeadDash ((rule2 (rule1 s)).map lowCh)

/-- The `/^[A-Z][a-zA-Z0-9]*$/` test of `toPascalCase`. -/
def isPascalShape : List Nat → Bool
  | [] => false
  | c :: cs => isUpperCh c && cs.all isAlnumCh

/-- Separator class `[-_\s]` of `toPascalCase`'s split. -/
def isSepCh (c : Nat) : Bool := c = 45 || c = 95 || isSpaceCh c

/-- JS `String.prototype.split` on a character class; keeps empty fragments and
yields `[""]` on the empty string. -/
def jsSplit (isSep : Nat → Bool) : List Nat → List (List Nat)
  | [] => [[]]
  | c :: cs =>
    if isSep c then [] :: jsSplit isSep cs
    else match jsSplit isSep cs with
      | [] => [[c]]
      | w :: ws => (c :: w) :: ws

/-- `word.charAt(0).toUpperCase() + word.slice(1).toLowerCase()`. -/
def capLower : List Nat → List Nat
  | [] => []
  | c :: cs => upCh c :: cs.map lowCh

/-- `Array.prototype.join('')`. -/
def joinList (ws : List (List Nat)) : List Nat := ws.foldr (· ++ ·) []

/-- `toPascalCase` from `src/utils.ts`. -/
def toPascalCase (s : List Nat) : List Nat :=
  if isPascalShape s then s
  else joinList ((jsSplit isSepCh s).map capLower)

/-- `ensureSuffix` from `src/utils.ts` (case-insensitive suffix check). -/
def ensureSuffix (name suffix : List Nat) : List Nat :=
  let lowerName := name.map lowCh
  let lowerSuffix := suffix.map lowCh
  if lowerSuffix.isSuffixOf lowerName then name else name ++ suffix

/-- `generateHandlerName` from `src/utils.ts`. -/
def generateHandlerName (className : List Nat) : List Nat :=
  className ++ str "Handler"

/-! ### Analysis of the kebab/Pascal round trip

The two global regex replacements of `toKebabCase` cannot produce overlapping
matches (each inserted dash sits in front of an uppercase letter, and a match's
trailing characters can never start another match), so on alphanumeric input
they insert a dash exactly at every "word boundary".  `kwRaw` computes the
resulting word decomposition directly; the definitions below exist only for
the proofs and embed no source code. -/

/-- Word boundary after `a`, before `b`, with lookahead `rest`: either regex
pass of `toKebabCase` fires here. -/
def bdry (a b : Nat) (rest : List Nat) : Bool :=
  fire1 a b ||
    (isUpperCh a && isUpperCh b &&
      (match rest with
       | c :: _ => isLowerCh c
       | [] => false))

/-- Word decomposition of an alphanumeric string along `bdry`. -/
def kwRaw : List Nat → List (List Nat)
  | [] => []
  | [a] => [[a]]
  | a :: b :: rest =>
    if bdry a b rest then [a] :: kwRaw (b :: rest)
    else
      match kwRaw (b :: rest) with
      | [] => [[a]]
      | w :: ws => (a :: w) :: ws

/-- Join a word list with single dashes. -/
def joinDash : List (List Nat) → List Nat
  | [] => []
  | [w] => w
  | w :: ws => w ++ 45 :: joinDash ws

/-- Adjacency invariant of a word list: a singleton word is always followed by
a word whose second character is a lowercase letter. -/
def ChainLow : List (List Nat) → Prop
  | w :: w' :: ws =>
    (w.length = 1 → ∃ y z t, w' = y :: z :: t ∧ isLowerCh z = true)
    ∧ ChainLow (w' :: ws)
  | _ => True

/-- Adjacency invariant of the raw decomposition, conditional on the singleton
word starting uppercase. -/
def ChainRaw : List (List Nat) → Prop
  | w :: w' :: ws =>
    ((w.length = 1 ∧ ∃ c cs, w = c :: cs ∧ isUpperCh c = true) →
      ∃ y z t, w' = y :: z :: t ∧ isLowerCh z = true)
    ∧ ChainRaw (w' :: ws)
  | _ => True

/-- A lowered kebab word: nonempty, lowercase-letter head, lowercase or digit
characters throughout. -/
def GoodWord (w : List Nat) : Prop :=
  (∃ c cs, w = c :: cs ∧ isLowerCh c = true)
  ∧ ∀ c ∈ w, isLowerCh c = true ∨ isDigitCh c = true

/-- The full invariant of the word lists arising from kebab-casing a PascalCase
string. -/
def GoodWords (ws : List (List Nat)) : Prop :=
  ws ≠ [] ∧ (∀ w ∈ ws, GoodWord w) ∧ ChainLow ws

/-- The round trip named by the specification. -/
def roundTrip (x : List Nat) : List Nat :=
  toPascalCase (toKebabCase (toPascalCase x))

/-! ## module-manager.service.ts: handler reconstruction and barrels -/

/-- The `'command' | 'event' | 'query'` union handled by the generator. -/
inductive CqrsType
  | command
  | event
  | query
deriving DecidableEq, Repr

/-- The literal type tag. -/
def tyStr : CqrsType → List Nat
  | .command => str "command"
  | .event => str "event"
  | .query => str "query"

/-- `getSuffix` from `generator.service.ts`. -/
def getSuffix : CqrsType → List Nat
  | .command => str "Command"
  | .event => str "Event"
  | .query => str "Query"

/-- `getTypeFolderName` from `generator.service.ts` (plural folder names). -/
def typeFolderName : CqrsType → List Nat
  | .command => str "commands"
  | .event => str "events"
  | .query => str "queries"


/-- `HandlerInfo` from `module-manager.service.ts`. -/
structure HandlerInfo where
  name : List Nat
  path : List Nat
deriving DecidableEq, Repr

/-- Start index, within the maximal word run `W`, of the `"Handler"` occurrence
the backtracking group `(\w+Handler)` settles on: greedy `\w+` picks the latest
occurrence of `"Handler"` in `W` that leaves at least one word character in
front of it. -/
def lastHandlerIdx (W : List Nat) : Option Nat :=
  ((List.range W.length).filter
    (fun q => decide (0 < q) && (str "Handler").isPrefixOf (W.drop q))).getLast?

/-- The group captured from the word run `W`, when `W` admits one. -/
def exportGroup (W : List Nat) : Option (List Nat) :=
  match lastHandlerIdx W with
  | some q => some (W.take (q + 7))
  | none => none

/-- Match of `/export class (\w+Handler)/` anchored at the head of `s`,
returning the captured group. -/
def matchExportClassAt (s : List Nat) : Option (List Nat) :=
  if (str "export class ").isPrefixOf s then
    exportGroup ((s.drop 13).takeWhile isWordCh)
  else none

/-- `extractHandlerName` from `module-manager.service.ts`: first position at
which the regex matches wins; `null` when it matches nowhere. -/
def extractHandlerName : List Nat → Option (List Nat)
  | [] => none
  | s@(_ :: t) =>
    match matchExportClassAt s with
    | some h => some h
    | none => extractHandlerName t

/-- Specification-side reading of the extraction pattern: at position `i` the
file text carries the literal `export class ` followed by the identifier `h`,
a run of word characters that ends in `"Handler"` with at least one character
in front of it. -/
def SpecMatchAt (s : List Nat) (i : Nat) (h : List Nat) : Prop :=
  (str "export class " ++ h).isPrefixOf (s.drop i) = true
  ∧ h.all isWordCh = true
  ∧ (str "Handler").isSuffixOf h = true
  ∧ 7 < h.length

/-- Some identifier matches the pattern at position `i`. -/
def HasMatchAt (s : List Nat) (i : Nat) : Prop := ∃ h, SpecMatchAt s i h

/-- One entry of the type folder as seen by `Deno.readDir`: a subdirectory
(together with the content of its `<name>.handler.ts`, when that file is
readable) or a plain file. -/
inductive FsEntry
  | dir (name : List Nat) (handlerFile : Option (List Nat))
  | file (name : List Nat) (content : List Nat)
deriving DecidableEq, Repr

/-- `getAllHandlers`: walk the type folder in enumeration order, consider only
subdirectories, silently skip a subdirectory whose handler file cannot be read
or yields no handler-name match, and collect `{ name, path: './<dir>' }`. -/
def getAllHandlers : List FsEntry → List HandlerInfo
  | [] => []
  | .dir n (some content) :: rest =>
    (match extractHandlerName content with
     | some handlerName => [⟨handlerName, str "./" ++ n⟩]
     | none => []) ++ getAllHandlers rest
  | .dir _ none :: rest => getAllHandlers rest
  | .file _ _ :: rest => getAllHandlers rest

/-- `Deno.writeTextFile` on the model type folder: overwrite the file entry of
that name, or add one. -/
def writeFsFile : List FsEntry → List Nat → List Nat → List FsEntry
  | [], n, c => [.file n c]
  | .file n' c' :: rest, n, c =>
    if n' = n then .file n c :: rest else .file n' c' :: writeFsFile rest n c
  | e :: rest, n, c => e :: writeFsFile rest n c

/-- Content of the named file in the model type folder. -/
def readFsFile : List FsEntry → List Nat → Option (List Nat)
  | [], _ => none
  | .file n' c :: rest, n => if n' = n then some c else readFsFile rest n
  | .dir _ _ :: rest, n => readFsFile rest n

/-- `type.charAt(0).toUpperCase() + type.slice(1)`. -/
def capFirstUp : List Nat → List Nat
  | [] => []
  | c :: cs => upCh c :: cs

/-- The `handler.name.replace('Handler', '')` step of
`generateTypeIndexContent`: JS `replace` with a string pattern deletes the
first occurrence of `"Handler"`. -/
def mainClassName (handlerName : List Nat) : List Nat :=
  replaceFirst handlerName (str "Handler") []

/-- `generateTypeIndexContent` from `module-manager.service.ts`. -/
def generateTypeIndexContent (ty : CqrsType) (handlers : List HandlerInfo) :
    List Nat :=
  let typeCapitalized := capFirstUp (tyStr ty)
  let handlerArrayName := typeCapitalized ++ str "Handlers"
  let imports := handlers.foldl
    (fun acc h =>
      acc ++ str "import \x7b " ++ h.name ++ str " \x7d from '" ++ h.path
        ++ str "';\n" ++ str "import \x7b " ++ mainClassName h.name
        ++ str " \x7d from '" ++ h.path ++ str "';\n")
    []
  let mainClasses := handlers.map (fun h => mainClassName h.name)
  let content := imports ++ str "\n"
  let content := content ++ str "export const " ++ handlerArrayName ++ str " = [\n"
  let content := handlers.foldl
    (fun acc h => acc ++ str "  " ++ h.name ++ str ",\n") content
  let content := content ++ str "];\n\n"
  let content := content ++ str "// Export all " ++ tyStr ty ++ str " classes\n"
  mainClasses.foldl
    (fun acc m => acc ++ str "export \x7b " ++ m ++ str " \x7d;\n") content

/-- The merge step of `updateTypeIndex`: append the new entry unless a
reconstructed handler already bears exactly the same name. -/
def mergedHandlers (entries : List FsEntry) (newHandler : HandlerInfo) :
    List HandlerInfo :=
  let handlers := getAllHandlers entries
  if handlers.any (fun h => h.name == newHandler.name) then handlers
  else handlers ++ [newHandler]

/-- `updateTypeIndex` acting on the state of its type folder: reconstruct the
handler list, merge the new entry, regenerate the barrel and overwrite
`index.ts` wholesale. -/
def updateTypeIndex (ty : CqrsType) (entries : List FsEntry)
    (newHandler : HandlerInfo) : List FsEntry :=
  writeFsFile entries (str "index.ts")
    (generateTypeIndexContent ty (mergedHandlers entries newHandler))

/-! ## generator.service.ts: types, names and paths -/

/-- `className` as computed by `generate`. -/
def genClassName (ty : CqrsType) (name : List Nat) : List Nat :=
  ensureSuffix (toPascalCase name) (getSuffix ty)

/-- `handlerName` as computed by `generate`. -/
def genHandlerNameOf (ty : CqrsType) (name : List Nat) : List Nat :=
  generateHandlerName (genClassName ty name)

/-- `basePath` of `generate`:
`join('apps', appName, 'src', 'application', typeFolder, folderName)`. -/
def genBasePath (appName : List Nat) (ty : CqrsType) (name : List Nat) : List Nat :=
  pathJoin [str "apps", appName, str "src", str "application",
    typeFolderName ty, toKebabCase name]

/-- `mainFilePath` of `generate`. -/
def genMainFilePath (appName : List Nat) (ty : CqrsType) (name : List Nat) : List Nat :=
  pathJoin [genBasePath appName ty name,
    toKebabCase name ++ str "." ++ tyStr ty ++ str ".ts"]

/-- `handlerFilePath` of `generate`. -/
def genHandlerFilePath (appName : List Nat) (ty : CqrsType) (name : List Nat) : List Nat :=
  pathJoin [genBasePath appName ty name, toKebabCase name ++ str ".handler.ts"]

/-- `indexFilePath` of `generate` (the component's local barrel). -/
def genLocalIndexPath (appName : List Nat) (ty : CqrsType) (name : List Nat) : List Nat :=
  pathJoin [genBasePath appName ty name, str "index.ts"]

/-! ## module-manager.service.ts: paths -/

/-- `typePath` of `updateTypeIndex`:
`join('apps', 'src', appName, 'application', typeFolder)`. -/
def mmTypePath (appName typeFolder : List Nat) : List Nat :=
  pathJoin [str "apps", str "src", appName, str "application", typeFolder]

/-- `indexPath` of `updateTypeIndex`. -/
def mmIndexPath (appName typeFolder : List Nat) : List Nat :=
  pathJoin [mmTypePath appName typeFolder, str "index.ts"]

/-- `modulePath` of `updateServiceModule`. -/
def mmModulePath (appName : List Nat) : List Nat :=
  pathJoin [str "apps", str "src", appName, str "src", appName ++ str ".module.ts"]

/-! ## initializeService (generator.service.ts) -/

/-- Outcome of the `Deno.stat` call on the application root. -/
inductive StatOutcome
  | notFound
  | stat (isDirectory : Bool)
  | failure (msg : List Nat)
deriving DecidableEq, Repr

/-- The try/catch block opening `initializeService`: a missing root raises the
`does not exist` error, a root that is not a directory raises the
`exists but is not a directory` error (thrown inside the try, rethrown by the
catch since it is not a `NotFound`), any other stat failure is rethrown. -/
def initCheck (appName : List Nat) (statRes : StatOutcome) : Except (List Nat) Unit :=
  match statRes with
  | .notFound => .error (str "App \"" ++ appName ++ str "\" does not exist")
  | .stat d =>
    if d then .ok ()
    else .error (str "App \"" ++ appName ++ str "\" exists but is not a directory")
  | .failure m => .error m

/-- The layout directories `initializeService` creates (in the order of the
`ensureDir` calls). -/
def initLayoutDirs (appName : List Nat) : List (List Nat) :=
  let basePath := pathJoin [str "apps", appName, str "src"]
  [pathJoin [basePath, str "application", str "commands"],
   pathJoin [basePath, str "application", str "events"],
   pathJoin [basePath, str "application", str "queries"],
   pathJoin [basePath, str "domain", str "constants"],
   pathJoin [basePath, str "domain", str "entities"],
   pathJoin [basePath, str "infrastructure", str "adapters"],
   pathJoin [basePath, str "infrastructure", str "persistence"],
   pathJoin [basePath, str "controllers"],
   pathJoin [basePath, str "dto", str "requests"],
   pathJoin [basePath, str "dto", str "responses"],
   pathJoin [basePath, str "ports"]]

/-- Result of `initializeService`: which directories were created, and the
overall outcome. -/
structure InitResult where
  createdDirs : List (List Nat)
  outcome : Except (List Nat) Unit

/-- `initializeService` from `generator.service.ts`: precondition check first,
directory creation only afterwards. -/
def initializeService (appName : List Nat) (statRes : StatOutcome) : InitResult :=
  match initCheck appName statRes with
  | .error e => ⟨[], .error e⟩
  | .ok () => ⟨initLayoutDirs appName, .ok ()⟩

/-! ## module-manager.service.ts: the service module file -/

/-- `word.charAt(0).toUpperCase() + word.slice(1)` — the remainder is kept
as-is (not lowercased), unlike `toPascalCase`'s fragments. -/
def capFirstKeep : List Nat → List Nat
  | [] => []
  | c :: cs => upCh c :: cs

/-- Class name built by `generateNewModuleContent`:
split the app name on `'-'` only, capitalize the first letter of each fragment,
join, append `"Module"`. -/
def newModuleClassName (appName : List Nat) : List Nat :=
  joinList ((jsSplit (fun c => c == 45) appName).map capFirstKeep) ++ str "Module"

/-- The fixed part of the module-file template, up to the class name. -/
def newModuleContentHead : List Nat :=
  str "import \x7b Module \x7d from '@nestjs/common';\nimport \x7b CqrsModule \x7d from '@nestjs/cqrs';\nimport \x7b CommandHandlers \x7d from './application/commands';\nimport \x7b EventHandlers \x7d from './application/events';\nimport \x7b QueryHandlers \x7d from './application/queries';\n\n@Module(\x7b\n  imports: [CqrsModule],\n  providers: [\n    ...CommandHandlers,\n    ...EventHandlers,\n    ...QueryHandlers,\n  ],\n\x7d)\nexport class "

/-- `generateNewModuleContent` from `module-manager.service.ts`. -/
def generateNewModuleContent (appName : List Nat) : List Nat :=
  newModuleContentHead ++ newModuleClassName appName ++ str " \x7b\x7d\n"

/-- The three well-known aggregate import statements of `updateModuleContent`. -/
def wellKnownImports : List (List Nat) :=
  [str "import \x7b CommandHandlers \x7d from './application/commands';",
   str "import \x7b EventHandlers \x7d from './application/events';",
   str "import \x7b QueryHandlers \x7d from './application/queries';"]

/-- The three `...XHandlers` spread tokens of `updateModuleContent`. -/
def handlerSpreads : List (List Nat) :=
  [str "...CommandHandlers", str "...EventHandlers", str "...QueryHandlers"]

/-- Length of the match of the import-statement regex (`import`, anything,
`from`, anything, a quote and a semicolon, all on one line) anchored at the
head of `s`.  Backtracking of the two greedy gaps makes the overall match end
at the line's last quote-semicolon pair lying at least four characters after
the line's first `from` occurrence (itself at least six characters in). -/
def importFirstFrom (line : List Nat) : Option Nat :=
  ((List.range line.length).filter
    (fun f => decide (6 ≤ f) && (str "from").isPrefixOf (line.drop f))).head?

/-- Largest position of a quote-semicolon pair usable as the match's end. -/
def importLastQuote (line : List Nat) (fmin : Nat) : Option Nat :=
  ((List.range line.length).filter
    (fun q => decide (fmin + 4 ≤ q)
      && (line.get? q == some 39 || line.get? q == some 34)
      && line.get? (q + 1) == some 59)).getLast?

def importMatchLen (s : List Nat) : Option Nat :=
  if (str "import").isPrefixOf s then
    match importFirstFrom (s.takeWhile (fun c => !(c == 10))) with
    | none => none
    | some fmin =>
      match importLastQuote (s.takeWhile (fun c => !(c == 10))) fmin with
      | none => none
      | some q => some (q + 2)
  else none

/-- A successful import match is nonempty and only occurs on nonempty text. -/
theorem importMatchLen_bound {s : List Nat} {len : Nat}
    (h : importMatchLen s = some len) : 0 < len ∧ 0 < s.length := by
  unfold importMatchLen at h
  split at h
  case isTrue hp =>
    have hlen : 6 ≤ s.length := by
      have h1 := (List.isPrefixOf_iff_prefix.mp hp).length_le
      simpa [str] using h1
    split at h
    · exact absurd h (by simp)
    · split at h
      · exact absurd h (by simp)
      · simp only [Option.some.injEq] at h
        omega
  case isFalse => exact absurd h (by simp)

/-- All matches of the import-statement regex, scanning left to right and
resuming after each match (matches cannot overlap).  The fuel argument only
serves termination: every step consumes at least one character, so
`s.length + 1` units never run out. -/
def importMatchesGo : Nat → List Nat → List (List Nat)
  | 0, _ => []
  | fuel + 1, s =>
    match importMatchLen s with
    | some len => s.take len :: importMatchesGo fuel (s.drop len)
    | none =>
      match s with
      | [] => []
      | _ :: t => importMatchesGo fuel t

/-- All matches of the import-statement regex in `s`. -/
def importMatches (s : List Nat) : List (List Nat) :=
  importMatchesGo (s.length + 1) s

/-- One iteration of the import-insertion loop of `updateModuleContent`: skip
if the statement is already present, else splice it in right after the last
match of the import regex (or prepend it when there is none). -/
def addImport (u imp : List Nat) : List Nat :=
  if containsSub u imp then u
  else
    match (importMatches u).getLast? with
    | some lastImport => replaceFirst u lastImport (lastImport ++ str "\n" ++ imp)
    | none => imp ++ str "\n\n" ++ u

/-- The import-insertion loop of `updateModuleContent`. -/
def addImports (u : List Nat) : List Nat := wellKnownImports.foldl addImport u

/-- JS `String.prototype.trim` (ASCII whitespace). -/
def trimStr (s : List Nat) : List Nat :=
  ((s.dropWhile isSpaceCh).reverse.dropWhile isSpaceCh).reverse

/-- The trailing-comma `replace` of `updateModuleContent`: drop one final
comma. -/
def stripTrailingComma (s : List Nat) : List Nat :=
  match s.getLast? with
  | some 44 => s.dropLast
  | _ => s

/-- Split `s` at the first occurrence of `pat`: `s = pre ++ pat ++ suf`. -/
def splitFirst : List Nat → List Nat → Option (List Nat × List Nat)
  | s, pat =>
    if pat.isPrefixOf s then some ([], s.drop pat.length)
    else match s with
      | [] => none
      | c :: t => (splitFirst t pat).map (fun r => (c :: r.1, r.2))

/-- Match of the providers regex (`providers:`, optional whitespace, `[`, a
lazy group up to the first `]`) anchored at the head of `s`; returns the group
and the text after the match. -/
def provTryHead (s : List Nat) : Option (List Nat × List Nat) :=
  if (str "providers:").isPrefixOf s then
    match (s.drop 10).dropWhile isSpaceCh with
    | 91 :: rest3 => splitFirst rest3 (str "]")
    | _ => none
  else none

/-- First match of the providers regex in `s`:
`s = pre ++ (matched text) ++ suf`, group `g`. -/
def provSplit : List Nat → Option (List Nat × List Nat × List Nat)
  | [] => none
  | s@(c :: t) =>
    match provTryHead s with
    | some (g, suf) => some ([], g, suf)
    | none => (provSplit t).map (fun r => (c :: r.1, r.2.1, r.2.2))

/-- Match of the decorator regex (`@Module({`, lazy group, `})`) anchored at
the head of `s`. -/
def moduleTryHead (s : List Nat) : Option (List Nat × List Nat) :=
  if (str "@Module(\x7b").isPrefixOf s then splitFirst (s.drop 9) (str "\x7d)")
  else none

/-- First match of the decorator regex in `s`. -/
def moduleSplit : List Nat → Option (List Nat × List Nat × List Nat)
  | [] => none
  | s@(c :: t) =>
    match moduleTryHead s with
    | some (g, suf) => some ([], g, suf)
    | none => (moduleSplit t).map (fun r => (c :: r.1, r.2.1, r.2.2))

/-- One iteration of the spread-insertion loop of `updateModuleContent`: skip
if the token occurs anywhere; else rewrite the providers array (trimmed, a
normalized trailing comma, the token appended), or — with no providers array —
inject one into the decorator object. -/
def addSpread (u arr : List Nat) : List Nat :=
  if containsSub u arr then u
  else
    match provSplit u with
    | some (pre, g, suf) =>
      let providersContent := trimStr g
      if containsSub providersContent arr then u
      else
        let newProvidersContent :=
          if providersContent.isEmpty then str "\n    " ++ arr ++ str ",\n  "
          else
            stripTrailingComma providersContent ++ str ",\n    " ++ arr ++ str ","
        pre ++ str "providers: [" ++ newProvidersContent ++ str "]" ++ suf
    | none =>
      match moduleSplit u with
      | some (pre, g, suf) =>
        let newModuleContent :=
          if containsSub g (str "providers:") then g
          else trimStr g ++ str ",\n  providers: [\n    " ++ arr ++ str ",\n  ],"
        pre ++ str "@Module(\x7b" ++ newModuleContent ++ str "\x7d)" ++ suf
      | none => u

/-- The spread-insertion loop of `updateModuleContent`. -/
def addSpreads (u : List Nat) : List Nat := handlerSpreads.foldl addSpread u

/-- `updateModuleContent` from `module-manager.service.ts` (the `_appName`
parameter is unused in the source as well). -/
def updateModuleContent (content _appName : List Nat) : List Nat :=
  addSpreads (addImports content)

/-! ## updateServiceModule and the tail of generate -/

/-- The body of `updateServiceModule`'s outer `try`: read the module file
(falling back to a fresh skeleton plus an `ensureDir` when the read fails),
patch it, write it back.  The `readRes`, `ensureRes` and `writeRes` oracles
stand for the outcomes of the three filesystem effects. -/
def updateServiceModuleAttempt (appName : List Nat)
    (readRes : Except (List Nat) (List Nat))
    (ensureRes : Except (List Nat) Unit)
    (writeRes : List Nat → Except (List Nat) Unit) :
    Except (List Nat) (List Nat) := do
  let moduleContent ←
    match readRes with
    | .ok c => pure c
    | .error _ => do
        let c := generateNewModuleContent appName
        let _ ← ensureRes
        pure c
  let updatedContent := updateModuleContent moduleContent appName
  let _ ← writeRes updatedContent
  pure updatedContent

/-- Outcome of `updateServiceModule`: either the module file was updated, or a
warning was logged — there is no fatal case. -/
inductive ModuleStepOutcome
  | updated (content : List Nat)
  | warned (msg : List Nat)
deriving DecidableEq, Repr

/-- `updateServiceModule` from `module-manager.service.ts`: the whole attempt
is wrapped in a catch that downgrades every error to a console warning. -/
def updateServiceModule (appName : List Nat)
    (readRes : Except (List Nat) (List Nat))
    (ensureRes : Except (List Nat) Unit)
    (writeRes : List Nat → Except (List Nat) Unit) : ModuleStepOutcome :=
  match updateServiceModuleAttempt appName readRes ensureRes writeRes with
  | .ok c => .updated c
  | .error e => .warned e

/-- The tail of `GeneratorService.generate` after the component's own files
were written: the module-registration step runs and the invocation returns. -/
def generateFinish (fileWrites : Except (List Nat) Unit) (appName : List Nat)
    (readRes : Except (List Nat) (List Nat)) (ensureRes : Except (List Nat) Unit)
    (writeRes : List Nat → Except (List Nat) Unit) : Except (List Nat) Unit := do
  let _ ← fileWrites
  let _ := updateServiceModule appName readRes ensureRes writeRes
  pure ()

/-- Pre-existing module file with a hand-written `FooService` provider, used to
exercise `updateModuleContent`. -/
def fooModuleText : List Nat :=
  str "import \x7b Module \x7d from '@nestjs/common';\n\n@Module(\x7b\n  providers: [\n    FooService\n  ],\n\x7d)\nexport class AppModule \x7b\x7d\n"

/-- `updateModuleContent` applied to `fooModuleText`. -/
def fooModuleOut : List Nat := updateModuleContent fooModuleText (str "app")

/-- Concrete handler entry used to evaluate the double-run scenario of
`updateTypeIndex`. -/
def cuEntry : HandlerInfo :=
  ⟨str "CreateUserCommandHandler", str "./create-user"⟩

/-- Barrel content after running `updateTypeIndex` twice with `cuEntry` on a
fresh (empty) commands folder. -/
def cuBarrelTwice : Option (List Nat) :=
  readFsFile
    (updateTypeIndex .command (updateTypeIndex .command [] cuEntry) cuEntry)
    (str "index.ts")

end Cquver

namespace Cquver

/-- Rewriting the barrel file does not change the reconstructed handler set:
the scan only looks at subdirectories. -/
theorem getAllHandlers_writeFsFile (st : List FsEntry) (n c : List Nat) :
    getAllHandlers (writeFsFile st n c) = getAllHandlers st := by
  induction st with
  | nil => rfl
  | cons e rest ih =>
    cases e with
    | dir nm hf => cases hf <;> simp [writeFsFile, getAllHandlers, ih]
    | file nm ct =>
      by_cases h : nm = n <;> simp [writeFsFile, getAllHandlers, h, ih]

/-- Writing the same file twice keeps only the last content. -/
theorem writeFsFile_writeFsFile (st : List FsEntry) (n c c' : List Nat) :
    writeFsFile (writeFsFile st n c) n c' = writeFsFile st n c' := by
  induction st with
  | nil => simp [writeFsFile]
  | cons e rest ih =>
    cases e with
    | dir nm hf => simp [writeFsFile, ih]
    | file nm ct =>
      by_cases h : nm = n <;> simp [writeFsFile, h, ih]

/-- C9: `generateHandlerName` appends `"Handler"` unconditionally — for every
`className` the result is exactly `className ++ "Handler"`, so an input that
already ends in `"Handler"` yields a `"HandlerHandler"` name, unlike
`ensureSuffix`, which checks (case-insensitively) before appending. -/
theorem generateHandlerName_unconditional_append :
    (∀ className : List Nat, generateHandlerName className = className ++ str "Handler")
    ∧ generateHandlerName (str "FooHandler") = str "FooHandlerHandler"
    ∧ ensureSuffix (str "FooHandler") (str "Handler") = str "FooHandler" := by
  refine ⟨fun c => rfl, by decide, by decide⟩

/-- C4: evaluation of the path computations at the failing input
`generate("demo", "event", "UserCreated")`.  The event file, handler file and
local index are written under `apps/demo/src/application/events/user-created/`,
but `updateTypeIndex` computes its barrel path in a different tree,
`apps/src/demo/application/events/index.ts`, not the
`apps/demo/src/application/events/index.ts` of the tree just written (which is
the location the spec and the repository's own generator tests expect). -/
theorem generate_barrel_path_mismatch :
    genMainFilePath (str "demo") .event (str "UserCreated")
        = str "apps/demo/src/application/events/user-created/user-created.event.ts"
    ∧ genHandlerFilePath (str "demo") .event (str "UserCreated")
        = str "apps/demo/src/application/events/user-created/user-created.handler.ts"
    ∧ genLocalIndexPath (str "demo") .event (str "UserCreated")
        = str "apps/demo/src/application/events/user-created/index.ts"
    ∧ genHandlerNameOf .event (str "UserCreated") = str "UserCreatedEventHandler"
    ∧ mmIndexPath (str "demo") (typeFolderName .event)
        = str "apps/src/demo/application/events/index.ts"
    ∧ mmIndexPath (str "demo") (typeFolderName .event)
        ≠ str "apps/demo/src/application/events/index.ts" := by
  refine ⟨by decide, by decide, by decide, by decide, by decide, by decide⟩

/-- C6: `initializeService` fails with the descriptive `does not exist` error
when the application root is absent, fails with the distinct
`exists but is not a directory` error when the path is present but not a
directory — in both cases before creating any directory — and creates the
layout exactly when the root is an existing directory. -/
theorem initializeService_precondition :
    ∀ appName : List Nat,
      initializeService appName .notFound
          = ⟨[], .error (str "App \"" ++ appName ++ str "\" does not exist")⟩
      ∧ initializeService appName (.stat false)
          = ⟨[], .error (str "App \"" ++ appName ++ str "\" exists but is not a directory")⟩
      ∧ (str "App \"" ++ appName ++ str "\" does not exist"
          ≠ str "App \"" ++ appName ++ str "\" exists but is not a directory")
      ∧ initializeService appName (.stat true) = ⟨initLayoutDirs appName, .ok ()⟩ := by
  intro appName
  refine ⟨rfl, rfl, ?_, rfl⟩
  intro h
  have hlen := congrArg List.length h
  simp [str, List.length_append] at hlen

set_option maxRecDepth 20000 in
/-- C1: `updateTypeIndex` appends the new entry exactly when no reconstructed
handler has the same name, and running it twice with the same entry yields the
same folder state (same handler list, same barrel) as running it once; in
particular two runs with `CreateUserCommandHandler` on a fresh commands folder
leave a barrel whose `CommandHandlers` array lists that handler exactly once. -/
theorem updateTypeIndex_idempotent :
    (∀ (ty : CqrsType) (st : List FsEntry) (e : HandlerInfo),
        updateTypeIndex ty (updateTypeIndex ty st e) e = updateTypeIndex ty st e
      ∧ mergedHandlers (updateTypeIndex ty st e) e = mergedHandlers st e
      ∧ ((getAllHandlers st).any (fun h => h.name == e.name) = true →
          mergedHandlers st e = getAllHandlers st)
      ∧ ((getAllHandlers st).any (fun h => h.name == e.name) = false →
          mergedHandlers st e = getAllHandlers st ++ [e]))
    ∧ cuBarrelTwice.isSome = true
    ∧ countSub (cuBarrelTwice.getD []) (str "  CreateUserCommandHandler,\n") = 1 := by
  refine ⟨fun ty st e => ?_, by decide, by decide⟩
  have hscan : getAllHandlers (updateTypeIndex ty st e) = getAllHandlers st :=
    getAllHandlers_writeFsFile _ _ _
  have hmerge : mergedHandlers (updateTypeIndex ty st e) e = mergedHandlers st e := by
    simp [mergedHandlers, hscan]
  refine ⟨?_, hmerge, fun h => by simp [mergedHandlers, h], fun h => by simp [mergedHandlers, h]⟩
  show writeFsFile _ _ _ = _
  rw [hmerge]
  exact writeFsFile_writeFsFile _ _ _ _

/-- Witness for C1 at a concrete input: on the empty folder the scan does not
contain the entry, so it is appended. -/
theorem updateTypeIndex_idempotent_witness :
    mergedHandlers [] cuEntry = [cuEntry] :=
  (updateTypeIndex_idempotent.1 .command [] cuEntry).2.2.2 (by decide)

/-- Splitting a `containsSub … = false` fact on a cons cell. -/
theorem containsSub_cons_false {c : Nat} {t pat : List Nat}
    (h : containsSub (c :: t) pat = false) :
    pat.isPrefixOf (c :: t) = false ∧ containsSub t pat = false := by
  unfold containsSub at h
  split at h
  · exact absurd h (by simp)
  · next hnp =>
      refine ⟨?_, h⟩
      revert hnp
      cases pat.isPrefixOf (c :: t) <;> simp

/-- A list contains each of its prefixes. -/
theorem containsSub_of_isPrefixOf {l pat : List Nat} (h : pat.isPrefixOf l = true) :
    containsSub l pat = true := by
  unfold containsSub
  simp [h]

/-- Containment is stable under prepending. -/
theorem containsSub_append_left (p : List Nat) {s pat : List Nat}
    (h : containsSub s pat = true) : containsSub (p ++ s) pat = true := by
  induction p with
  | nil => simpa using h
  | cons c p' ih =>
    show containsSub (c :: (p' ++ s)) pat = true
    unfold containsSub
    split <;> simp [ih]

/-- Every list contains itself. -/
theorem containsSub_refl (s : List Nat) : containsSub s s = true :=
  containsSub_of_isPrefixOf
    (by rw [List.isPrefixOf_iff_prefix])

/-- A concatenation contains its own suffix. -/
theorem containsSub_append_self (p s : List Nat) : containsSub (p ++ s) s = true :=
  containsSub_append_left p (containsSub_refl s)

/-- Deleting the first occurrence of `"Handler"` from `C ++ "Handler"` gives
back `C` whenever `"Handler"` does not occur inside `C`: the occurrence at the
boundary is impossible because `"Handler"` has no nontrivial border. -/
theorem replaceFirst_handler_suffix (C : List Nat)
    (h : containsSub C (str "Handler") = false) :
    replaceFirst (C ++ str "Handler") (str "Handler") [] = C := by
  induction C with
  | nil =>
    show replaceFirst (str "Handler") (str "Handler") [] = []
    decide
  | cons c C' ih =>
    obtain ⟨hnp, h'⟩ := containsSub_cons_false h
    by_cases hp : (str "Handler").isPrefixOf (c :: C' ++ str "Handler") = true
    · exfalso
      have hpre : str "Handler" <+: (c :: C') ++ str "Handler" :=
        List.isPrefixOf_iff_prefix.mp hp
      have hlen : (str "Handler").length = 7 := by decide
      have he := List.prefix_iff_eq_take.mp hpre
      rw [List.take_append_eq_append_take, hlen] at he
      by_cases hk7 : 7 ≤ (c :: C').length
      · have h1 : (c :: C').take 7 <+: (c :: C') := List.take_prefix _ _
        have h2 : (7 : Nat) - (c :: C').length = 0 := by omega
        rw [h2] at he
        simp only [List.take_zero, List.append_nil] at he
        have : (str "Handler").isPrefixOf (c :: C') = true := by
          rw [List.isPrefixOf_iff_prefix, he]
          exact h1
        rw [this] at hnp
        exact absurd hnp (by simp)
      · have hk0 : 0 < (c :: C').length := by simp
        have h1 : (c :: C').take 7 = c :: C' := by
          apply List.take_of_length_le
          omega
        rw [h1] at he
        have hd := congrArg (List.drop (c :: C').length) he
        rw [List.drop_append_eq_append_drop] at hd
        simp only [List.drop_length, Nat.sub_self, List.drop_zero,
          List.nil_append] at hd
        have hnob : ∀ k, k < 7 → 0 < k →
            (str "Handler").drop k ≠ (str "Handler").take (7 - k) := by decide
        exact hnob (c :: C').length (by omega) hk0 hd
    · show replaceFirst (c :: (C' ++ str "Handler")) (str "Handler") [] = c :: C'
      unfold replaceFirst
      rw [if_neg (by simpa using hp)]
      exact congrArg (c :: ·) (ih h')

set_option maxRecDepth 40000 in
set_option maxHeartbeats 2000000 in
/-- C3 counterexample: `generateTypeIndexContent` derives the main class by
deleting the first occurrence of `"Handler"`, not the final suffix.  For the
handler name `HandlerFactoryEventHandler` (which is `C ++ "Handler"` with
`C = "HandlerFactoryEvent"`) the barrel re-exports `FactoryEventHandler`, not
`HandlerFactoryEvent`. -/
theorem mainClassName_not_suffix_strip :
    str "HandlerFactoryEventHandler" = str "HandlerFactoryEvent" ++ str "Handler"
    ∧ mainClassName (str "HandlerFactoryEventHandler") = str "FactoryEventHandler"
    ∧ mainClassName (str "HandlerFactoryEventHandler") ≠ str "HandlerFactoryEvent"
    ∧ containsSub
        (generateTypeIndexContent .event [⟨str "HandlerFactoryEventHandler", str "./x"⟩])
        (str "export \x7b FactoryEventHandler \x7d;") = true
    ∧ containsSub
        (generateTypeIndexContent .event [⟨str "HandlerFactoryEventHandler", str "./x"⟩])
        (str "export \x7b HandlerFactoryEvent \x7d;") = false := by
  refine ⟨by decide, by decide, by decide, by decide, by decide⟩

/-- C3 amended: for a handler name `C ++ "Handler"` in which the substring
`"Handler"` does not occur earlier (inside `C`), the derived main class name is
exactly `C`, and the regenerated barrel re-exports exactly `C`. -/
theorem mainClassName_strips_suffix_when_unique :
    ∀ (C p : List Nat) (ty : CqrsType), containsSub C (str "Handler") = false →
      mainClassName (C ++ str "Handler") = C
      ∧ containsSub (generateTypeIndexContent ty [⟨C ++ str "Handler", p⟩])
          (str "export \x7b " ++ C ++ str " \x7d;\n") = true := by
  intro C p ty h
  have h1 : mainClassName (C ++ str "Handler") = C :=
    replaceFirst_handler_suffix C h
  refine ⟨h1, ?_⟩
  simp only [generateTypeIndexContent, List.foldl, List.map, h1, List.append_assoc,
    List.nil_append]
  repeat
    first
      | exact containsSub_refl _
      | apply containsSub_append_left

/-- Witness for C3's amended theorem at the concrete handler name
`CreateUserCommandHandler` (`C = "CreateUserCommand"`). -/
theorem mainClassName_strips_suffix_when_unique_witness :
    mainClassName (str "CreateUserCommand" ++ str "Handler") = str "CreateUserCommand" :=
  (mainClassName_strips_suffix_when_unique (str "CreateUserCommand") (str "./create-user")
    .command (by decide)).1

/-- C5: every failure inside `updateServiceModule` (read, patch or write) is
caught by its outer catch and turned into a warning — the attempt's error value
becomes a `warned` outcome, a successful attempt becomes `updated`, and the
enclosing `generate` invocation completes successfully whatever the module
step's oracles do; concretely, a failing module-file write yields a warning,
not an error. -/
theorem updateServiceModule_never_fatal :
    (∀ (appName : List Nat) (readRes : Except (List Nat) (List Nat))
        (ensureRes : Except (List Nat) Unit)
        (writeRes : List Nat → Except (List Nat) Unit),
        (∀ e, updateServiceModuleAttempt appName readRes ensureRes writeRes = .error e →
            updateServiceModule appName readRes ensureRes writeRes = .warned e)
      ∧ (∀ c, updateServiceModuleAttempt appName readRes ensureRes writeRes = .ok c →
            updateServiceModule appName readRes ensureRes writeRes = .updated c)
      ∧ generateFinish (.ok ()) appName readRes ensureRes writeRes = .ok ())
    ∧ updateServiceModule (str "demo") (.ok (str "x")) (.ok ())
        (fun _ => .error (str "disk full")) = .warned (str "disk full") := by
  refine ⟨fun a r en w => ⟨fun e h => ?_, fun c h => ?_, ?_⟩, ?_⟩
  · simp [updateServiceModule, h]
  · simp [updateServiceModule, h]
  · rfl
  · rfl

/-- Witness for C5: a read failure followed by an `ensureDir` failure inside
the attempt is downgraded to a warning. -/
theorem updateServiceModule_never_fatal_witness :
    updateServiceModule (str "a") (.error (str "enoent")) (.error (str "mkdir failed"))
        (fun _ => .ok ()) = .warned (str "mkdir failed") :=
  ((updateServiceModule_never_fatal.1 (str "a") (.error (str "enoent"))
      (.error (str "mkdir failed")) (fun _ => .ok ())).1 (str "mkdir failed") rfl)

/-- Splitting on pointwise-equal separator classes gives the same fragments. -/
theorem jsSplit_congr {p q : Nat → Bool} :
    ∀ {s : List Nat}, (∀ c ∈ s, p c = q c) → jsSplit p s = jsSplit q s := by
  intro s
  induction s with
  | nil => intro _; rfl
  | cons c cs ih =>
    intro h
    have hc : p c = q c := h c (List.mem_cons_self c cs)
    have hcs : ∀ x ∈ cs, p x = q x := fun x hx => h x (List.mem_cons_of_mem c hx)
    simp only [jsSplit, hc, ih hcs]

/-- Every character of a split fragment is a character of the split input. -/
theorem jsSplit_mem {p : Nat → Bool} :
    ∀ {s w : List Nat} {c : Nat}, w ∈ jsSplit p s → c ∈ w → c ∈ s := by
  intro s
  induction s with
  | nil =>
    intro w c hw hc
    simp only [jsSplit, List.mem_singleton] at hw
    subst hw
    exact absurd hc (List.not_mem_nil c)
  | cons a cs ih =>
    intro w c hw hc
    simp only [jsSplit] at hw
    split at hw
    · rcases List.mem_cons.mp hw with h | h
      · subst h; exact absurd hc (List.not_mem_nil c)
      · exact List.mem_cons_of_mem a (ih h hc)
    · split at hw
      case h_1 heq =>
        simp only [List.mem_singleton] at hw
        subst hw
        simp only [List.mem_singleton] at hc
        simp [hc]
      case h_2 w' ws heq =>
        rcases List.mem_cons.mp hw with h | h
        · subst h
          rcases List.mem_cons.mp hc with h | h
          · simp [h]
          · have : w' ∈ jsSplit p cs := by rw [heq]; exact List.mem_cons_self w' ws
            exact List.mem_cons_of_mem a (ih this h)
        · have : w ∈ jsSplit p cs := by rw [heq]; exact List.mem_cons_of_mem w' h
          exact List.mem_cons_of_mem a (ih this hc)

/-- On a fragment without uppercase letters, `toPascalCase`'s capitalisation
and `generateNewModuleContent`'s capitalisation coincide. -/
theorem capLower_eq_capFirstKeep {w : List Nat}
    (h : ∀ c ∈ w, isUpperCh c = false) : capLower w = capFirstKeep w := by
  cases w with
  | nil => rfl
  | cons c cs =>
    simp only [capLower, capFirstKeep, List.cons.injEq, true_and]
    have : ∀ x ∈ cs, lowCh x = x := by
      intro x hx
      have := h x (List.mem_cons_of_mem c hx)
      simp [lowCh, this]
    calc cs.map lowCh = cs.map id := List.map_congr_left this
      _ = cs := List.map_id cs

/-- A concatenation contains any full block of its right-associated spine. -/
theorem containsSub_middle (p x t : List Nat) :
    containsSub (p ++ (x ++ t)) x = true :=
  containsSub_append_left p
    (containsSub_of_isPrefixOf
      (by rw [List.isPrefixOf_iff_prefix]; exact List.prefix_append x t))

set_option maxRecDepth 100000 in
set_option maxHeartbeats 2000000 in
/-- C7 counterexample: the module-file skeleton derives its class name by
capitalising only `'-'`-separated fragments, keeping the remainder of each
fragment untouched; on the app name `my_app` this yields `My_appModule`, not
`toPascalCase("my_app") + "Module" = "MyAppModule"`. -/
theorem newModuleClassName_not_pascal :
    newModuleClassName (str "my_app") = str "My_appModule"
    ∧ toPascalCase (str "my_app") ++ str "Module" = str "MyAppModule"
    ∧ newModuleClassName (str "my_app") ≠ toPascalCase (str "my_app") ++ str "Module"
    ∧ containsSub (generateNewModuleContent (str "my_app"))
        (str "export class My_appModule") = true
    ∧ containsSub (generateNewModuleContent (str "my_app"))
        (str "export class MyAppModule") = false := by
  refine ⟨by decide, by decide, by decide, by decide, by decide⟩

set_option maxRecDepth 100000 in
set_option maxHeartbeats 2000000 in
/-- C7 amended: for lowercase kebab-case app names (no uppercase letter, no
underscore, no whitespace, ASCII), the skeleton's decorated class name equals
`toPascalCase(appName) + "Module"`, and the generated module text declares
exactly that class. -/
theorem newModuleClassName_pascal_on_kebab :
    ∀ appName : List Nat,
      (∀ c ∈ appName, isUpperCh c = false ∧ c ≠ 95 ∧ isSpaceCh c = false ∧ c < 128) →
      newModuleClassName appName = toPascalCase appName ++ str "Module"
      ∧ containsSub (generateNewModuleContent appName)
          (str "export class " ++ (toPascalCase appName ++ str "Module")) = true := by
  intro a h
  have h1 : newModuleClassName a = toPascalCase a ++ str "Module" := by
    have hshape : isPascalShape a = false := by
      cases a with
      | nil => rfl
      | cons c cs =>
        have := (h c (List.mem_cons_self c cs)).1
        simp [isPascalShape, this]
    have hsplit : jsSplit isSepCh a = jsSplit (fun c => c == 45) a := by
      apply jsSplit_congr
      intro c hc
      obtain ⟨hu, h95, hsp, _⟩ := h c hc
      simp only [isSepCh, hsp, Bool.or_false]
      by_cases hd : c = 45
      · simp [hd]
      · simp [hd, h95]
    have hcap : (jsSplit (fun c => c == 45) a).map capLower
        = (jsSplit (fun c => c == 45) a).map capFirstKeep := by
      apply List.map_congr_left
      intro w hw
      apply capLower_eq_capFirstKeep
      intro c hc
      exact (h c (jsSplit_mem hw hc)).1
    rw [newModuleClassName, toPascalCase, if_neg (by simp [hshape]), hsplit, hcap]
  refine ⟨h1, ?_⟩
  have hhead : newModuleContentHead
      = str "import \x7b Module \x7d from '@nestjs/common';\nimport \x7b CqrsModule \x7d from '@nestjs/cqrs';\nimport \x7b CommandHandlers \x7d from './application/commands';\nimport \x7b EventHandlers \x7d from './application/events';\nimport \x7b QueryHandlers \x7d from './application/queries';\n\n@Module(\x7b\n  imports: [CqrsModule],\n  providers: [\n    ...CommandHandlers,\n    ...EventHandlers,\n    ...QueryHandlers,\n  ],\n\x7d)\n"
        ++ str "export class " := by decide
  rw [generateNewModuleContent, h1, hhead]
  rw [List.append_assoc, List.append_assoc]
  rw [← List.append_assoc (str "export class ") (toPascalCase a ++ str "Module")
    (str " \x7b\x7d\n")]
  exact containsSub_append_left _
    (containsSub_of_isPrefixOf
      (by rw [List.isPrefixOf_iff_prefix]; exact List.prefix_append _ _))

/-- Witness for C7's amended theorem at the concrete app name `user-service`:
the generated class is `UserServiceModule`. -/
theorem newModuleClassName_pascal_on_kebab_witness :
    newModuleClassName (str "user-service")
      = toPascalCase (str "user-service") ++ str "Module" :=
  (newModuleClassName_pascal_on_kebab (str "user-service") (by decide)).1

/-- An already-present import statement is never inserted again. -/
theorem addImport_of_contains {u imp : List Nat} (h : containsSub u imp = true) :
    addImport u imp = u := by
  simp [addImport, h]

/-- An already-present spread token is never inserted again. -/
theorem addSpread_of_contains {u arr : List Nat} (h : containsSub u arr = true) :
    addSpread u arr = u := by
  simp [addSpread, h]

set_option maxRecDepth 400000 in
set_option maxHeartbeats 4000000 in
/-- Import phase of the `FooService` scenario, evaluated. -/
theorem addImports_foo : addImports fooModuleText = str "import \x7b Module \x7d from '@nestjs/common';\nimport \x7b CommandHandlers \x7d from './application/commands';\nimport \x7b EventHandlers \x7d from './application/events';\nimport \x7b QueryHandlers \x7d from './application/queries';\n\n@Module(\x7b\n  providers: [\n    FooService\n  ],\n\x7d)\nexport class AppModule \x7b\x7d\n" := by decide

set_option maxRecDepth 400000 in
set_option maxHeartbeats 4000000 in
/-- First spread insertion of the `FooService` scenario, evaluated. -/
theorem addSpread_foo1 :
    addSpread (str "import \x7b Module \x7d from '@nestjs/common';\nimport \x7b CommandHandlers \x7d from './application/commands';\nimport \x7b EventHandlers \x7d from './application/events';\nimport \x7b QueryHandlers \x7d from './application/queries';\n\n@Module(\x7b\n  providers: [\n    FooService\n  ],\n\x7d)\nexport class AppModule \x7b\x7d\n") (str "...CommandHandlers") = str "import \x7b Module \x7d from '@nestjs/common';\nimport \x7b CommandHandlers \x7d from './application/commands';\nimport \x7b EventHandlers \x7d from './application/events';\nimport \x7b QueryHandlers \x7d from './application/queries';\n\n@Module(\x7b\n  providers: [FooService,\n    ...CommandHandlers,],\n\x7d)\nexport class AppModule \x7b\x7d\n" := by decide

set_option maxRecDepth 400000 in
set_option maxHeartbeats 4000000 in
/-- Second spread insertion of the `FooService` scenario, evaluated. -/
theorem addSpread_foo2 :
    addSpread (str "import \x7b Module \x7d from '@nestjs/common';\nimport \x7b CommandHandlers \x7d from './application/commands';\nimport \x7b EventHandlers \x7d from './application/events';\nimport \x7b QueryHandlers \x7d from './application/queries';\n\n@Module(\x7b\n  providers: [FooService,\n    ...CommandHandlers,],\n\x7d)\nexport class AppModule \x7b\x7d\n") (str "...EventHandlers") = str "import \x7b Module \x7d from '@nestjs/common';\nimport \x7b CommandHandlers \x7d from './application/commands';\nimport \x7b EventHandlers \x7d from './application/events';\nimport \x7b QueryHandlers \x7d from './application/queries';\n\n@Module(\x7b\n  providers: [FooService,\n    ...CommandHandlers,\n    ...EventHandlers,],\n\x7d)\nexport class AppModule \x7b\x7d\n" := by decide

set_option maxRecDepth 400000 in
set_option maxHeartbeats 4000000 in
/-- Third spread insertion of the `FooService` scenario, evaluated. -/
theorem addSpread_foo3 :
    addSpread (str "import \x7b Module \x7d from '@nestjs/common';\nimport \x7b CommandHandlers \x7d from './application/commands';\nimport \x7b EventHandlers \x7d from './application/events';\nimport \x7b QueryHandlers \x7d from './application/queries';\n\n@Module(\x7b\n  providers: [FooService,\n    ...CommandHandlers,\n    ...EventHandlers,],\n\x7d)\nexport class AppModule \x7b\x7d\n") (str "...QueryHandlers") = str "import \x7b Module \x7d from '@nestjs/common';\nimport \x7b CommandHandlers \x7d from './application/commands';\nimport \x7b EventHandlers \x7d from './application/events';\nimport \x7b QueryHandlers \x7d from './application/queries';\n\n@Module(\x7b\n  providers: [FooService,\n    ...CommandHandlers,\n    ...EventHandlers,\n    ...QueryHandlers,],\n\x7d)\nexport class AppModule \x7b\x7d\n" := by decide

set_option maxRecDepth 400000 in
set_option maxHeartbeats 4000000 in
/-- The full patched `FooService` module file. -/
theorem fooModuleOut_eq : fooModuleOut = str "import \x7b Module \x7d from '@nestjs/common';\nimport \x7b CommandHandlers \x7d from './application/commands';\nimport \x7b EventHandlers \x7d from './application/events';\nimport \x7b QueryHandlers \x7d from './application/queries';\n\n@Module(\x7b\n  providers: [FooService,\n    ...CommandHandlers,\n    ...EventHandlers,\n    ...QueryHandlers,],\n\x7d)\nexport class AppModule \x7b\x7d\n" := by
  show addSpreads (addImports fooModuleText) = _
  rw [addImports_foo]
  show addSpread (addSpread (addSpread (str "import \x7b Module \x7d from '@nestjs/common';\nimport \x7b CommandHandlers \x7d from './application/commands';\nimport \x7b EventHandlers \x7d from './application/events';\nimport \x7b QueryHandlers \x7d from './application/queries';\n\n@Module(\x7b\n  providers: [\n    FooService\n  ],\n\x7d)\nexport class AppModule \x7b\x7d\n")
      (str "...CommandHandlers")) (str "...EventHandlers")) (str "...QueryHandlers") = _
  rw [addSpread_foo1, addSpread_foo2, addSpread_foo3]

set_option maxRecDepth 400000 in
set_option maxHeartbeats 4000000 in
/-- C2 counterexample: `updateModuleContent` does not write every other byte of
the original back unchanged.  On a module file whose providers array holds a
hand-written `FooService` on its own indented line, adding the missing spreads
rewrites the array interior: the original text is not even a subsequence of the
output (so the edit is not insertion-only), and the original
`providers: [\n    FooService\n  ],` byte run is gone. -/
theorem updateModuleContent_not_byte_preserving :
    isSubseq fooModuleText fooModuleOut = false
    ∧ containsSub fooModuleText (str "providers: [\n    FooService\n  ],") = true
    ∧ containsSub fooModuleOut (str "providers: [\n    FooService\n  ],") = false := by
  refine ⟨?_, by decide, ?_⟩ <;> rw [fooModuleOut_eq] <;> decide

set_option maxRecDepth 400000 in
set_option maxHeartbeats 4000000 in
/-- C2 amended: the patch is additive on the level of the well-known fragments
— when every aggregate import and spread is already present the text is
returned byte-identical, and nothing already present is ever duplicated; on the
`FooService` module file the hand-written provider survives and each missing
fragment is added exactly once — but when a missing spread is appended
the interior of the `providers` array is rewritten in normalized form
(trimmed, canonical indentation) rather than byte-preserved. -/
theorem updateModuleContent_additive :
    (∀ content appName : List Nat,
        (∀ imp ∈ wellKnownImports, containsSub content imp = true) →
        (∀ sp ∈ handlerSpreads, containsSub content sp = true) →
        updateModuleContent content appName = content)
    ∧ containsSub fooModuleOut (str "FooService") = true
    ∧ countSub fooModuleOut (str "...CommandHandlers") = 1
    ∧ countSub fooModuleOut (str "...EventHandlers") = 1
    ∧ countSub fooModuleOut (str "...QueryHandlers") = 1
    ∧ (∀ imp ∈ wellKnownImports, countSub fooModuleOut imp = 1) := by
  refine ⟨fun content appName hi hs => ?_,
    by rw [fooModuleOut_eq]; decide, by rw [fooModuleOut_eq]; decide,
    by rw [fooModuleOut_eq]; decide, by rw [fooModuleOut_eq]; decide,
    by intro imp him; rw [fooModuleOut_eq]; revert him; revert imp; decide⟩
  have hi1 := hi (str "import \x7b CommandHandlers \x7d from './application/commands';")
    (by decide)
  have hi2 := hi (str "import \x7b EventHandlers \x7d from './application/events';")
    (by decide)
  have hi3 := hi (str "import \x7b QueryHandlers \x7d from './application/queries';")
    (by decide)
  have hs1 := hs (str "...CommandHandlers") (by decide)
  have hs2 := hs (str "...EventHandlers") (by decide)
  have hs3 := hs (str "...QueryHandlers") (by decide)
  show addSpreads (addImports content) = content
  rw [addImports]
  simp only [wellKnownImports, List.foldl]
  rw [addImport_of_contains hi1, addImport_of_contains hi2, addImport_of_contains hi3]
  rw [addSpreads]
  simp only [handlerSpreads, List.foldl]
  rw [addSpread_of_contains hs1, addSpread_of_contains hs2, addSpread_of_contains hs3]

set_option maxRecDepth 400000 in
set_option maxHeartbeats 4000000 in
/-- Witness for C2's amended theorem: the freshly generated module skeleton
already carries all three imports and spreads, and the patch returns it
byte-identical. -/
theorem updateModuleContent_additive_witness :
    updateModuleContent (generateNewModuleContent (str "app")) (str "app")
      = generateNewModuleContent (str "app") :=
  updateModuleContent_additive.1 _ _ (by decide) (by decide)

/-- An element delivered by `getLast?` belongs to the list. -/
theorem mem_of_getLast?_some {α : Type} {l : List α} {a : α}
    (h : l.getLast? = some a) : a ∈ l := by
  obtain ⟨hne, heq⟩ := List.mem_getLast?_eq_getLast (Option.mem_def.mpr h)
  rw [heq]
  exact List.getLast_mem hne

/-- A prefix made of characters satisfying `p` survives `takeWhile p`. -/
theorem prefix_takeWhile_of_all {p : Nat → Bool} :
    ∀ {h t : List Nat}, h.all p = true → h <+: t → h <+: t.takeWhile p := by
  intro h
  induction h with
  | nil => intro t _ _; simp
  | cons c cs ih =>
    intro t hall hpre
    obtain ⟨u, hu⟩ := hpre
    subst hu
    simp only [List.all_cons, Bool.and_eq_true] at hall
    rw [List.cons_append, List.takeWhile_cons_of_pos hall.1]
    exact List.cons_prefix_cons.mpr ⟨rfl, ih hall.2 (List.prefix_append cs u)⟩

/-- Soundness of the anchored matcher: a captured group is a word run ending in
`Handler`, preceded in the text by `export class `. -/
theorem matchExportClassAt_sound {s h : List Nat}
    (hm : matchExportClassAt s = some h) : SpecMatchAt s 0 h := by
  unfold matchExportClassAt at hm
  split at hm
  case isFalse => exact absurd hm (by simp)
  case isTrue hec =>
    unfold exportGroup at hm
    split at hm
    case h_2 => exact absurd hm (by simp)
    case h_1 q hq =>
      simp only [Option.some.injEq] at hm
      subst hm
      have hqmem := mem_of_getLast?_some hq
      have hqrange := List.mem_range.mp (List.mem_of_mem_filter hqmem)
      have hqprop := List.of_mem_filter hqmem
      simp only [Bool.and_eq_true, decide_eq_true_eq] at hqprop
      obtain ⟨hq0, hqpre⟩ := hqprop
      set W := (s.drop 13).takeWhile isWordCh with hW
      have hWpre : W <+: s.drop 13 := List.takeWhile_prefix isWordCh
      have hHpre : str "Handler" <+: W.drop q := List.isPrefixOf_iff_prefix.mp hqpre
      have hq7 : q + 7 ≤ W.length := by
        have h1 := hHpre.length_le
        rw [List.length_drop] at h1
        have h2 : (str "Handler").length = 7 := by decide
        omega
      have hlen : (W.take (q + 7)).length = q + 7 := by
        rw [List.length_take]
        omega
      have hgpre : W.take (q + 7) <+: W := List.take_prefix _ _
      refine ⟨?_, ?_, ?_, ?_⟩
      · -- export class ++ group is a prefix of the text
        rw [List.isPrefixOf_iff_prefix]
        have hs13 : str "export class " = s.take 13 := by
          have := List.prefix_iff_eq_take.mp (List.isPrefixOf_iff_prefix.mp hec)
          simpa using this
        have hsplit : s = str "export class " ++ s.drop 13 := by
          rw [hs13]
          exact (List.take_append_drop 13 s).symm
        rw [List.drop_zero, hsplit]
        exact (List.prefix_append_right_inj (str "export class ")).mpr
          (hgpre.trans hWpre)
      · -- every group character is a word character
        rw [List.all_eq_true]
        intro c hc
        exact List.mem_takeWhile_imp (hgpre.subset hc)
      · -- the group ends in Handler
        rw [List.isSuffixOf_iff_suffix]
        have hsplit7 : W.take (q + 7) = W.take q ++ (W.drop q).take 7 :=
          List.take_add W q 7
        have h7 : (W.drop q).take 7 = str "Handler" := by
          have := List.prefix_iff_eq_take.mp hHpre
          simpa using this.symm
        rw [hsplit7, h7]
        exact List.suffix_append _ _
      · omega

/-- Completeness of the anchored matcher: when the pattern matches at the head,
the matcher returns a group. -/
theorem matchExportClassAt_complete {s h : List Nat} (hsm : SpecMatchAt s 0 h) :
    (matchExportClassAt s).isSome = true := by
  obtain ⟨hpre, hword, hsuf, hlen⟩ := hsm
  rw [List.drop_zero] at hpre
  have hpre' : str "export class " ++ h <+: s := List.isPrefixOf_iff_prefix.mp hpre
  have hec : (str "export class ").isPrefixOf s = true := by
    rw [List.isPrefixOf_iff_prefix]
    exact (List.prefix_append (str "export class ") h).trans hpre'
  have hh : h <+: s.drop 13 := by
    obtain ⟨u, hu⟩ := hpre'
    refine ⟨u, ?_⟩
    have : s = str "export class " ++ (h ++ u) := by
      rw [← hu]
      simp [List.append_assoc]
    rw [this]
    have h13 : (str "export class ").length = 13 := by decide
    rw [← h13, List.drop_left]
  set W := (s.drop 13).takeWhile isWordCh with hWdef
  have hW : h <+: W := prefix_takeWhile_of_all hword hh
  obtain ⟨A, hA⟩ := List.isSuffixOf_iff_suffix.mp hsuf
  have hAlen : A.length + 7 = h.length := by
    have := congrArg List.length hA
    simpa [List.length_append, str] using this
  have hWlen : h.length ≤ W.length := hW.length_le
  obtain ⟨W', hW'⟩ := hW
  have hdropA : W.drop A.length = str "Handler" ++ W' := by
    rw [← hW', ← hA, List.append_assoc]
    exact List.drop_left A (str "Handler" ++ W')
  have hAq : A.length < W.length := by omega
  have hA0 : 0 < A.length := by omega
  have hqmem : A.length ∈ (List.range W.length).filter
      (fun q => decide (0 < q) && (str "Handler").isPrefixOf (W.drop q)) := by
    apply List.mem_filter.mpr
    refine ⟨List.mem_range.mpr hAq, ?_⟩
    simp only [Bool.and_eq_true, decide_eq_true_eq]
    refine ⟨hA0, ?_⟩
    rw [List.isPrefixOf_iff_prefix, hdropA]
    exact List.prefix_append _ _
  have hsome : (lastHandlerIdx W).isSome = true := by
    unfold lastHandlerIdx
    exact List.getLast?_isSome.mpr (List.ne_nil_of_mem hqmem)
  unfold matchExportClassAt
  rw [if_pos hec]
  unfold exportGroup
  cases hcase : lastHandlerIdx W with
  | none => rw [hcase] at hsome; simp at hsome
  | some q => simp

/-- Shifting the match position along one character. -/
theorem hasMatchAt_shift {c : Nat} {s : List Nat} {j : Nat} :
    HasMatchAt (c :: s) (j + 1) ↔ HasMatchAt s j := by
  unfold HasMatchAt SpecMatchAt
  simp [List.drop_succ_cons]

/-- The empty text matches nowhere. -/
theorem not_hasMatchAt_nil (i : Nat) : ¬ HasMatchAt [] i := by
  rintro ⟨h, hpre, -, -, -⟩
  rw [List.drop_nil, List.isPrefixOf_iff_prefix, List.prefix_nil,
    List.append_eq_nil] at hpre
  exact absurd hpre.1 (by decide)

/-- A `none` scan means no position matches. -/
theorem extractHandlerName_none :
    ∀ s : List Nat, extractHandlerName s = none → ∀ i, ¬ HasMatchAt s i := by
  intro s
  induction s with
  | nil => intro _ i; exact not_hasMatchAt_nil i
  | cons c t ih =>
    intro hnone i
    unfold extractHandlerName at hnone
    cases hm : matchExportClassAt (c :: t) with
    | some h => rw [hm] at hnone; simp at hnone
    | none =>
      rw [hm] at hnone
      cases i with
      | zero =>
        rintro hhas
        obtain ⟨h, hsm⟩ := hhas
        have := matchExportClassAt_complete hsm
        rw [hm] at this
        simp at this
      | succ j =>
        rw [hasMatchAt_shift]
        exact ih hnone j

/-- A successful scan finds the first matching position. -/
theorem extractHandlerName_some :
    ∀ s h : List Nat, extractHandlerName s = some h →
      ∃ i, SpecMatchAt s i h ∧ ∀ j, j < i → ¬ HasMatchAt s j := by
  intro s
  induction s with
  | nil => intro h hsome; simp [extractHandlerName] at hsome
  | cons c t ih =>
    intro h hsome
    unfold extractHandlerName at hsome
    cases hm : matchExportClassAt (c :: t) with
    | some h0 =>
      rw [hm] at hsome
      simp only [Option.some.injEq] at hsome
      subst hsome
      exact ⟨0, matchExportClassAt_sound hm, fun j hj => absurd hj (by omega)⟩
    | none =>
      rw [hm] at hsome
      obtain ⟨i, hspec, hfirst⟩ := ih h hsome
      refine ⟨i + 1, ?_, ?_⟩
      · unfold SpecMatchAt at hspec ⊢
        rwa [List.drop_succ_cons]
      · intro j hj
        cases j with
        | zero =>
          rintro ⟨h', hsm⟩
          have := matchExportClassAt_complete hsm
          rw [hm] at this
          simp at this
        | succ j' =>
          rw [hasMatchAt_shift]
          exact hfirst j' (by omega)

/-- C10: the aggregate scan recognizes handlers purely textually —
`extractHandlerName` returns the identifier of the first position at which the
text (comments and strings included) matches `export class <word>Handler`,
returns `null` exactly when no position matches, and `getAllHandlers`
contributes at most one handler per directory entry. -/
theorem extractHandlerName_first_textual_match :
    (∀ s h : List Nat, extractHandlerName s = some h →
        ∃ i, SpecMatchAt s i h ∧ ∀ j, j < i → ¬ HasMatchAt s j)
    ∧ (∀ s : List Nat, extractHandlerName s = none → ∀ i, ¬ HasMatchAt s i)
    ∧ (∀ entries : List FsEntry, (getAllHandlers entries).length ≤ entries.length) := by
  refine ⟨extractHandlerName_some, extractHandlerName_none, ?_⟩
  intro entries
  induction entries with
  | nil => simp [getAllHandlers]
  | cons e rest ih =>
    cases e with
    | dir nm hf =>
      cases hf with
      | none => simp only [getAllHandlers, List.length_cons]; omega
      | some content =>
        simp only [getAllHandlers, List.length_append, List.length_cons]
        cases extractHandlerName content <;> simp <;> omega
    | file nm ct => simp only [getAllHandlers, List.length_cons]; omega

/-- Witness for C10: on a file whose only `export class FakeHandler` text sits
inside a line comment, the scan still reports `FakeHandler`, at the first (and
only) matching position. -/
theorem extractHandlerName_first_textual_match_witness :
    ∃ i, SpecMatchAt (str "// export class FakeHandler kommentar") i (str "FakeHandler")
      ∧ ∀ j, j < i → ¬ HasMatchAt (str "// export class FakeHandler kommentar") j :=
  extractHandlerName_first_textual_match.1 _ _ (by decide)

/-! ### Round-trip lemmas: character classes and local behaviour of the two
kebab-case regex passes. -/

/-- Numeric reading of the uppercase class. -/
theorem isUpperCh_iff {c : Nat} : isUpperCh c = true ↔ 65 ≤ c ∧ c ≤ 90 := by
  simp [isUpperCh]

/-- Numeric reading of the lowercase class. -/
theorem isLowerCh_iff {c : Nat} : isLowerCh c = true ↔ 97 ≤ c ∧ c ≤ 122 := by
  simp [isLowerCh]

/-- Numeric reading of the digit class. -/
theorem isDigitCh_iff {c : Nat} : isDigitCh c = true ↔ 48 ≤ c ∧ c ≤ 57 := by
  simp [isDigitCh]

/-- An uppercase letter is neither lowercase nor a digit. -/
theorem upper_not_lower_digit {c : Nat} (h : isUpperCh c = true) :
    isLowerCh c = false ∧ isDigitCh c = false := by
  rw [isUpperCh_iff] at h
  constructor
  · rw [← Bool.not_eq_true, isLowerCh_iff]; omega
  · rw [← Bool.not_eq_true, isDigitCh_iff]; omega

/-- A lowercase letter is not uppercase. -/
theorem lower_not_upper {c : Nat} (h : isLowerCh c = true) : isUpperCh c = false := by
  rw [isLowerCh_iff] at h
  rw [← Bool.not_eq_true, isUpperCh_iff]; omega

/-- A digit is not uppercase. -/
theorem digit_not_upper {c : Nat} (h : isDigitCh c = true) : isUpperCh c = false := by
  rw [isDigitCh_iff] at h
  rw [← Bool.not_eq_true, isUpperCh_iff]; omega

/-- The first pass leaves a head alone when its window does not fire. -/
theorem rule1_cons_nofire {a : Nat} {t : List Nat}
    (h : ∀ b, t.head? = some b → fire1 a b = false) :
    rule1 (a :: t) = a :: rule1 t := by
  cases t with
  | nil => rfl
  | cons b r => simp [rule1, h b rfl]

/-- A firing window of the first pass inserts a dash and cannot overlap the
next window. -/
theorem rule1_cons_fire {a b : Nat} {rest : List Nat} (h : fire1 a b = true) :
    rule1 (a :: b :: rest) = a :: 45 :: rule1 (b :: rest) := by
  have hb : isUpperCh b = true := by
    simp only [fire1, Bool.and_eq_true] at h
    exact h.2
  have hnof : rule1 (b :: rest) = b :: rule1 rest := by
    apply rule1_cons_nofire
    intro x _
    simp [fire1, (upper_not_lower_digit hb).1, (upper_not_lower_digit hb).2]
  simp [rule1, h, hnof]

/-- The first pass preserves the head character. -/
theorem rule1_head (a : Nat) (t : List Nat) : ∃ t', rule1 (a :: t) = a :: t' := by
  cases t with
  | nil => exact ⟨[], rfl⟩
  | cons b r =>
    by_cases hf : fire1 a b = true
    · exact ⟨45 :: b :: rule1 r, by simp [rule1, hf]⟩
    · exact ⟨rule1 (b :: r), by simp [rule1, hf]⟩

/-- The second pass leaves a head alone when its window does not fire. -/
theorem rule2_cons_nofire {a : Nat} {t : List Nat}
    (h : ∀ b c r, t = b :: c :: r → fire2 a b c = false) :
    rule2 (a :: t) = a :: rule2 t := by
  match t with
  | [] => rfl
  | [b] => rfl
  | b :: c :: r => simp [rule2, h b c r rfl]

/-- A firing window of the second pass inserts a dash and cannot overlap the
next window. -/
theorem rule2_cons_fire {a b c : Nat} {rest : List Nat} (h : fire2 a b c = true) :
    rule2 (a :: b :: c :: rest) = a :: 45 :: rule2 (b :: c :: rest) := by
  have hb : isUpperCh b = true := by
    simp only [fire2, Bool.and_eq_true] at h
    exact h.1.2
  have hc : isLowerCh c = true := by
    simp only [fire2, Bool.and_eq_true] at h
    exact h.2
  have h1 : rule2 (b :: c :: rest) = b :: rule2 (c :: rest) := by
    apply rule2_cons_nofire
    intro b' c' r' heq
    injection heq with hb' _
    subst hb'
    simp [fire2, lower_not_upper hc]
  have h2 : rule2 (c :: rest) = c :: rule2 rest := by
    apply rule2_cons_nofire
    intro b' c' r' heq
    simp [fire2, lower_not_upper hc]
  simp [rule2, h, h1, h2]

/-- With no uppercase letter in the tail, the first pass is the identity. -/
theorem rule1_id_of_no_upper {t : List Nat} (a : Nat)
    (h : ∀ x ∈ t, isUpperCh x = false) : rule1 (a :: t) = a :: t := by
  induction t generalizing a with
  | nil => rfl
  | cons b r ih =>
    have hb := h b (List.mem_cons_self b r)
    have hf : fire1 a b = false := by simp [fire1, hb]
    simp [rule1, hf, ih b (fun x hx => h x (List.mem_cons_of_mem b hx))]

/-- With no uppercase letter in the tail, the second pass is the identity. -/
theorem rule2_id_of_no_upper {t : List Nat} (a : Nat)
    (h : ∀ x ∈ t, isUpperCh x = false) : rule2 (a :: t) = a :: t := by
  induction t generalizing a with
  | nil => rfl
  | cons b r ih =>
    cases r with
    | nil => rfl
    | cons c r2 =>
      have hb := h b (List.mem_cons_self b _)
      have hf : fire2 a b c = false := by simp [fire2, hb]
      simp [rule2, hf, ih b (fun x hx => h x (List.mem_cons_of_mem b hx))]

/-- Unfolding of the decomposition at a boundary. -/
theorem kwRaw_cons_bdry {a b : Nat} {rest : List Nat} (h : bdry a b rest = true) :
    kwRaw (a :: b :: rest) = [a] :: kwRaw (b :: rest) := by
  rw [show kwRaw (a :: b :: rest)
      = (if bdry a b rest then [a] :: kwRaw (b :: rest)
         else
           match kwRaw (b :: rest) with
           | [] => [[a]]
           | w :: ws => (a :: w) :: ws) from rfl,
    if_pos h]

/-- Unfolding of the decomposition inside a word. -/
theorem kwRaw_cons_nobdry {a b : Nat} {rest w : List Nat} {ws : List (List Nat)}
    (h : bdry a b rest = false) (hw : kwRaw (b :: rest) = w :: ws) :
    kwRaw (a :: b :: rest) = (a :: w) :: ws := by
  rw [show kwRaw (a :: b :: rest)
      = (if bdry a b rest then [a] :: kwRaw (b :: rest)
         else
           match kwRaw (b :: rest) with
           | [] => [[a]]
           | w :: ws => (a :: w) :: ws) from rfl,
    if_neg (by simp [h]), hw]

/-- The decomposition of a nonempty string starts with a word led by the
string's first character. -/
theorem kwRaw_head : ∀ (t : List Nat) (a : Nat),
    ∃ w' ws, kwRaw (a :: t) = (a :: w') :: ws
  | [], a => ⟨[], [], rfl⟩
  | b :: r, a => by
    by_cases hb : bdry a b r = true
    · exact ⟨[], kwRaw (b :: r), by simp [kwRaw, hb]⟩
    · obtain ⟨w', ws, hw⟩ := kwRaw_head r b
      exact ⟨b :: w', ws, by simp [kwRaw, hb, hw]⟩

/-- The decomposition partitions the string. -/
theorem kwRaw_join : ∀ s : List Nat, (kwRaw s).join = s
  | [] => rfl
  | [a] => by simp [kwRaw]
  | a :: b :: rest => by
    have hj := kwRaw_join (b :: rest)
    by_cases hbd : bdry a b rest = true
    · simp [kwRaw, hbd, hj]
    · obtain ⟨w', ws, hw⟩ := kwRaw_head rest b
      rw [hw] at hj
      simp only [List.join_cons] at hj
      simp [kwRaw, hbd, hw, List.join_cons, hj]

/-- Words of the decomposition are nonempty. -/
theorem kwRaw_words_ne_nil : ∀ (s w : List Nat), w ∈ kwRaw s → w ≠ []
  | [], w => by intro h; simp [kwRaw] at h
  | [a], w => by
    intro h
    simp [kwRaw] at h
    simp [h]
  | a :: b :: rest, w => by
    intro h
    by_cases hbd : bdry a b rest = true
    · simp only [kwRaw, hbd, if_true] at h
      rcases List.mem_cons.mp h with h1 | h1
      · simp [h1]
      · exact kwRaw_words_ne_nil (b :: rest) w h1
    · obtain ⟨w', ws, hw⟩ := kwRaw_head rest b
      simp only [kwRaw, hbd, if_false, Bool.false_eq_true, hw] at h
      rcases List.mem_cons.mp h with h1 | h1
      · simp [h1]
      · exact kwRaw_words_ne_nil (b :: rest) w (by rw [hw]; exact List.mem_cons_of_mem _ h1)

/-- Prepending a character to the first word commutes with the dash join. -/
theorem joinDash_cons_head (a : Nat) (w : List Nat) (ws : List (List Nat)) :
    joinDash ((a :: w) :: ws) = a :: joinDash (w :: ws) := by
  cases ws with
  | nil => rfl
  | cons w2 ws2 => rfl

/-- The dash join of a decomposition headed by a singleton word. -/
theorem joinDash_single_cons (a : Nat) (w : List Nat) (ws : List (List Nat)) :
    joinDash ([a] :: w :: ws) = a :: 45 :: joinDash (w :: ws) := rfl

/-- On alphanumeric text the two kebab passes insert exactly the dashes of the
word decomposition. -/
theorem kebab_words : ∀ s : List Nat, (∀ c ∈ s, isAlnumCh c = true) →
    rule2 (rule1 s) = joinDash (kwRaw s)
  | [] => fun _ => rfl
  | [a] => fun _ => rfl
  | a :: b :: rest => fun halnum => by
    have hrec := kebab_words (b :: rest)
      (fun c hc => halnum c (List.mem_cons_of_mem a hc))
    obtain ⟨w0, ws0, hw0⟩ := kwRaw_head rest b
    by_cases hf1 : fire1 a b = true
    · -- boundary inserted by the first pass
      have hbd : bdry a b rest = true := by simp [bdry, hf1]
      rw [rule1_cons_fire hf1]
      have hp1 : rule2 (a :: 45 :: rule1 (b :: rest))
          = a :: rule2 (45 :: rule1 (b :: rest)) := by
        apply rule2_cons_nofire
        intro b' c' r' heq
        injection heq with hb' _
        subst hb'
        simp [fire2, show isUpperCh 45 = false from by decide]
      have hp2 : rule2 (45 :: rule1 (b :: rest)) = 45 :: rule2 (rule1 (b :: rest)) := by
        apply rule2_cons_nofire
        intro b' c' r' _
        simp [fire2, show isUpperCh 45 = false from by decide]
      rw [hp1, hp2, hrec, kwRaw_cons_bdry hbd, hw0, joinDash_single_cons]
    · by_cases hbd : bdry a b rest = true
      · -- boundary inserted by the second pass
        have hB2 : isUpperCh a = true ∧ isUpperCh b = true ∧
            (∃ c r2, rest = c :: r2 ∧ isLowerCh c = true) := by
          simp only [bdry, Bool.or_eq_true, Bool.and_eq_true] at hbd
          rcases hbd with h1 | h1
          · exact absurd h1 hf1
          · cases hrest : rest with
            | nil => rw [hrest] at h1; simp at h1
            | cons c r2 =>
              rw [hrest] at h1
              exact ⟨h1.1.1, h1.1.2, c, r2, rfl, h1.2⟩
        obtain ⟨ha, hb2, c, r2, hrest, hc⟩ := hB2
        subst hrest
        have hfab : fire1 a b = false := by
          rw [← Bool.not_eq_true]
          exact hf1
        have hfbc : fire1 b c = false := by
          simp [fire1, (upper_not_lower_digit hb2).1, (upper_not_lower_digit hb2).2]
        obtain ⟨t2, ht2⟩ := rule1_head c r2
        have h1 : rule1 (b :: c :: r2) = b :: c :: t2 := by
          rw [rule1_cons_nofire (fun x hx => by injection hx with h; subst h; exact hfbc),
            ht2]
        rw [rule1_cons_nofire (fun x hx => by injection hx with h; subst h; exact hfab)]
        rw [h1]
        rw [rule2_cons_fire (by simp [fire2, ha, hb2, hc])]
        rw [← h1, hrec, kwRaw_cons_bdry hbd, hw0, joinDash_single_cons]
      · -- no boundary: the first word continues
        have hfab : fire1 a b = false := by
          rw [← Bool.not_eq_true]
          exact hf1
        rw [rule1_cons_nofire (fun x hx => by injection hx with h; subst h; exact hfab)]
        have hpass : rule2 (a :: rule1 (b :: rest)) = a :: rule2 (rule1 (b :: rest)) := by
          apply rule2_cons_nofire
          intro b' c' r' heq
          obtain ⟨t', ht'⟩ := rule1_head b rest
          rw [ht'] at heq
          injection heq with hb' heq'
          subst hb'
          by_cases hua : isUpperCh a = true
          · by_cases hub : isUpperCh b = true
            · -- then rest starts with c' and c' is not lowercase
              cases hr : rest with
              | nil =>
                rw [hr] at ht'
                simp only [rule1] at ht'
                injection ht' with _ ht''
                rw [← ht''] at heq'
                exact absurd heq' (by simp)
              | cons c r2 =>
                rw [hr] at ht'
                have hfbc : fire1 b c = false := by
                  simp [fire1, (upper_not_lower_digit hub).1,
                    (upper_not_lower_digit hub).2]
                obtain ⟨t2, ht2⟩ := rule1_head c r2
                rw [rule1_cons_nofire
                  (fun x hx => by injection hx with h; subst h; exact hfbc), ht2] at ht'
                injection ht' with _ ht''
                rw [← ht''] at heq'
                injection heq' with hc' _
                subst hc'
                have hlc : isLowerCh c = false := by
                  simp only [bdry, Bool.or_eq_true, Bool.and_eq_true, hr] at hbd
                  rw [← Bool.not_eq_true]
                  intro hlc'
                  exact hbd (Or.inr ⟨⟨hua, hub⟩, hlc'⟩)
                simp [fire2, hlc]
            · simp [fire2, hub]
          · simp [fire2, hua]
        rw [hpass, hrec]
        have hkw : kwRaw (a :: b :: rest) = (a :: b :: w0) :: ws0 :=
          kwRaw_cons_nobdry (by rw [← Bool.not_eq_true]; exact hbd) hw0
        rw [hkw, hw0]
        exact (joinDash_cons_head a (b :: w0) ws0).symm

/-- A boundary always hands the next word an uppercase head. -/
theorem bdry_upper_b {a b : Nat} {rest : List Nat} (h : bdry a b rest = true) :
    isUpperCh b = true := by
  simp only [bdry, Bool.or_eq_true, Bool.and_eq_true] at h
  rcases h with h | h
  · simp only [fire1, Bool.and_eq_true] at h
    exact h.2
  · exact h.1.2

/-- Every word after the first one starts with an uppercase letter. -/
theorem kwRaw_tail_heads : ∀ (s w : List Nat), w ∈ (kwRaw s).tail →
    ∃ y ys, w = y :: ys ∧ isUpperCh y = true
  | [], w => by intro h; simp [kwRaw] at h
  | [a], w => by intro h; simp [kwRaw] at h
  | a :: b :: rest, w => by
    intro h
    obtain ⟨w0, ws0, hw0⟩ := kwRaw_head rest b
    by_cases hbd : bdry a b rest = true
    · rw [kwRaw_cons_bdry hbd, List.tail_cons, hw0] at h
      rcases List.mem_cons.mp h with h1 | h1
      · exact ⟨b, w0, h1, bdry_upper_b hbd⟩
      · exact kwRaw_tail_heads (b :: rest) w (by rw [hw0]; exact h1)
    · rw [kwRaw_cons_nobdry (by rw [← Bool.not_eq_true]; exact hbd) hw0,
        List.tail_cons] at h
      exact kwRaw_tail_heads (b :: rest) w (by rw [hw0]; exact h)

/-- For a PascalCase string, every word of the decomposition starts with an
uppercase letter. -/
theorem kwRaw_heads_upper {c : Nat} {cs : List Nat} (hc : isUpperCh c = true) :
    ∀ w ∈ kwRaw (c :: cs), ∃ y ys, w = y :: ys ∧ isUpperCh y = true := by
  intro w hw
  obtain ⟨w', ws, hw'⟩ := kwRaw_head cs c
  rw [hw'] at hw
  rcases List.mem_cons.mp hw with h1 | h1
  · exact ⟨c, w', h1, hc⟩
  · exact kwRaw_tail_heads (c :: cs) w (by rw [hw']; exact h1)

/-- The conditional adjacency invariant holds for every decomposition. -/
theorem kwRaw_chainRaw : ∀ s : List Nat, ChainRaw (kwRaw s)
  | [] => trivial
  | [a] => trivial
  | a :: b :: rest => by
    have hrec := kwRaw_chainRaw (b :: rest)
    obtain ⟨w0, ws0, hw0⟩ := kwRaw_head rest b
    by_cases hbd : bdry a b rest = true
    · rw [kwRaw_cons_bdry hbd, hw0]
      refine ⟨?_, by rw [← hw0]; exact hrec⟩
      rintro ⟨-, y, ys, hy, hupy⟩
      injection hy with hy1 _
      subst hy1
      -- the singleton word is uppercase, so only the second pass fired
      have hf1 : fire1 a b = false := by
        simp [fire1, (upper_not_lower_digit hupy).1, (upper_not_lower_digit hupy).2]
      have hB2 : isUpperCh b = true ∧ ∃ c r2, rest = c :: r2 ∧ isLowerCh c = true := by
        simp only [bdry, Bool.or_eq_true, Bool.and_eq_true, hf1] at hbd
        rcases hbd with h1 | h1
        · exact absurd h1 (by simp)
        · cases hrest : rest with
          | nil => rw [hrest] at h1; simp at h1
          | cons c r2 =>
            rw [hrest] at h1
            exact ⟨h1.1.2, c, r2, rfl, h1.2⟩
      obtain ⟨hub, c, r2, hrest, hc⟩ := hB2
      subst hrest
      have hbc : bdry b c r2 = false := by
        have h1 : isUpperCh c = false := lower_not_upper hc
        simp [bdry, fire1, h1]
      obtain ⟨w1, ws1, hw1⟩ := kwRaw_head r2 c
      have h2 : kwRaw (b :: c :: r2) = (b :: c :: w1) :: ws1 :=
        kwRaw_cons_nobdry hbc hw1
      rw [h2] at hw0
      injection hw0 with hw01 _
      exact ⟨b, c, w1, hw01.symm, hc⟩
    · rw [kwRaw_cons_nobdry (by rw [← Bool.not_eq_true]; exact hbd) hw0]
      cases ws0 with
      | nil => trivial
      | cons w1 ws1 =>
        refine ⟨?_, ?_⟩
        · rintro ⟨hlen, -⟩
          simp at hlen
        · have := hrec
          rw [hw0] at this
          exact this.2

/-- Characters of the decomposition's words are characters of the input. -/
theorem kwRaw_mem {s w : List Nat} {c : Nat} (hw : w ∈ kwRaw s) (hc : c ∈ w) :
    c ∈ s := by
  rw [← kwRaw_join s]
  exact List.mem_join.mpr ⟨w, hw, hc⟩

/-- Lowercasing an uppercase letter gives a lowercase letter. -/
theorem lowCh_upper {x : Nat} (h : isUpperCh x = true) : isLowerCh (lowCh x) = true := by
  rw [isUpperCh_iff] at h
  simp only [lowCh, isUpperCh_iff, if_pos h]
  rw [isLowerCh_iff]
  omega

/-- Lowercasing fixes everything that is not an uppercase letter. -/
theorem lowCh_not_upper {x : Nat} (h : isUpperCh x = false) : lowCh x = x := by
  simp [lowCh, h]

/-- Lowercasing undoes capitalising a lowercase letter. -/
theorem lowCh_upCh {c : Nat} (h : isLowerCh c = true) : lowCh (upCh c) = c := by
  rw [isLowerCh_iff] at h
  simp only [upCh, lowCh, isLowerCh_iff, isUpperCh_iff, if_pos h]
  rw [if_pos (by omega)]
  omega

/-- Capitalising a lowercase letter gives an uppercase letter. -/
theorem upCh_lower {c : Nat} (h : isLowerCh c = true) : isUpperCh (upCh c) = true := by
  rw [isLowerCh_iff] at h
  simp only [upCh, isLowerCh_iff, if_pos h]
  rw [isUpperCh_iff]
  omega

/-- Lowercasing an alphanumeric character yields a lowercase letter or digit. -/
theorem lowCh_alnum {x : Nat} (h : isAlnumCh x = true) :
    isLowerCh (lowCh x) = true ∨ isDigitCh (lowCh x) = true := by
  by_cases hu : isUpperCh x = true
  · exact Or.inl (lowCh_upper hu)
  · have hnu : isUpperCh x = false := by rw [← Bool.not_eq_true]; exact hu
    rw [lowCh_not_upper hnu]
    simp only [isAlnumCh, hnu, Bool.false_or, Bool.or_eq_true] at h
    exact h

/-- Lowercasing distributes over the dash join. -/
theorem map_lowCh_joinDash : ∀ ws : List (List Nat),
    (joinDash ws).map lowCh = joinDash (ws.map (List.map lowCh))
  | [] => rfl
  | [w] => rfl
  | w :: w' :: ws => by
    have := map_lowCh_joinDash (w' :: ws)
    simp only [joinDash, List.map_append, List.map_cons]
    rw [show lowCh 45 = 45 from by decide, this]
    rfl

/-- Alphanumeric from uppercase. -/
theorem alnum_of_upper {c : Nat} (h : isUpperCh c = true) : isAlnumCh c = true := by
  simp [isAlnumCh, h]

/-- Alphanumeric from lowercase. -/
theorem alnum_of_lower {c : Nat} (h : isLowerCh c = true) : isAlnumCh c = true := by
  simp [isAlnumCh, h]

/-- Alphanumeric from digit. -/
theorem alnum_of_digit {c : Nat} (h : isDigitCh c = true) : isAlnumCh c = true := by
  simp [isAlnumCh, h]

/-- A string that does not start with a dash is not stripped. -/
theorem stripLeadDash_cons_ne {x : Nat} {t : List Nat} (h : x ≠ 45) :
    stripLeadDash (x :: t) = x :: t := by
  unfold stripLeadDash
  split
  · next heq => injection heq with h1 _; exact absurd h1 h
  · rfl

/-- A PascalCase string is alphanumeric throughout. -/
theorem pascal_alnum {c : Nat} {cs : List Nat} (hp : isPascalShape (c :: cs) = true) :
    ∀ x ∈ c :: cs, isAlnumCh x = true := by
  simp only [isPascalShape, Bool.and_eq_true, List.all_eq_true] at hp
  intro x hx
  rcases List.mem_cons.mp hx with h1 | h1
  · subst h1; exact alnum_of_upper hp.1
  · exact hp.2 x h1

/-- Lowering the conditional raw chain gives the unconditional lowered chain,
once every word head is uppercase. -/
theorem chainLow_lowered : ∀ ws : List (List Nat), ChainRaw ws →
    (∀ w ∈ ws, ∃ y ys, w = y :: ys ∧ isUpperCh y = true) →
    ChainLow (ws.map (List.map lowCh))
  | [] => fun _ _ => trivial
  | [w] => fun _ _ => trivial
  | w :: w' :: ws => fun hc hh => by
    obtain ⟨hcond, hrest⟩ := hc
    refine ⟨?_, chainLow_lowered (w' :: ws) hrest
      (fun u hu => hh u (List.mem_cons_of_mem w hu))⟩
    intro hlen
    rw [List.length_map] at hlen
    obtain ⟨y, ys, hw, hy⟩ := hh w (List.mem_cons_self w _)
    obtain ⟨y2, z, t, hw', hz⟩ := hcond ⟨hlen, y, ys, hw, hy⟩
    refine ⟨lowCh y2, z, t.map lowCh, ?_, hz⟩
    rw [hw']
    simp [List.map_cons, lowCh_not_upper (lower_not_upper hz)]

/-- The lowered decomposition of a PascalCase string satisfies the full word
invariant. -/
theorem goodWords_lowered {c : Nat} {cs : List Nat}
    (hp : isPascalShape (c :: cs) = true) :
    GoodWords ((kwRaw (c :: cs)).map (List.map lowCh)) := by
  have halnum := pascal_alnum hp
  have hup : isUpperCh c = true := by
    simp only [isPascalShape, Bool.and_eq_true] at hp
    exact hp.1
  refine ⟨?_, ?_, ?_⟩
  · obtain ⟨w', ws, hw⟩ := kwRaw_head cs c
    rw [hw]
    simp
  · intro w' hw'
    obtain ⟨w, hwmem, rfl⟩ := List.mem_map.mp hw'
    obtain ⟨y, ys, hw, hy⟩ := kwRaw_heads_upper hup w hwmem
    constructor
    · exact ⟨lowCh y, ys.map lowCh, by rw [hw]; rfl, lowCh_upper hy⟩
    · intro x hx
      obtain ⟨x0, hx0, rfl⟩ := List.mem_map.mp hx
      exact lowCh_alnum (halnum x0 (kwRaw_mem hwmem hx0))
  · exact chainLow_lowered _ (kwRaw_chainRaw (c :: cs)) (kwRaw_heads_upper hup)

/-- On a PascalCase string, `toKebabCase` produces the dash join of the lowered
decomposition. -/
theorem toKebabCase_eq_joinDash {c : Nat} {cs : List Nat}
    (hp : isPascalShape (c :: cs) = true) :
    toKebabCase (c :: cs) = joinDash ((kwRaw (c :: cs)).map (List.map lowCh)) := by
  have halnum := pascal_alnum hp
  have hup : isUpperCh c = true := by
    simp only [isPascalShape, Bool.and_eq_true] at hp
    exact hp.1
  unfold toKebabCase
  rw [kebab_words _ halnum, map_lowCh_joinDash]
  obtain ⟨w', ws, hw⟩ := kwRaw_head cs c
  rw [hw]
  simp only [List.map_cons]
  rw [joinDash_cons_head]
  apply stripLeadDash_cons_ne
  have hl := lowCh_upper hup
  rw [isLowerCh_iff] at hl
  omega

/-- Splitting a separator-free string yields the string itself. -/
theorem jsSplit_no_sep {p : Nat → Bool} :
    ∀ {w : List Nat}, (∀ c ∈ w, p c = false) → jsSplit p w = [w] := by
  intro w
  induction w with
  | nil => intro _; rfl
  | cons c cs ih =>
    intro h
    have hc := h c (List.mem_cons_self c cs)
    simp [jsSplit, hc, ih (fun x hx => h x (List.mem_cons_of_mem c hx))]

/-- Splitting a separator-free word glued before a dash peels the word off. -/
theorem jsSplit_word_dash {p : Nat → Bool} (hp : p 45 = true) :
    ∀ (w R : List Nat), (∀ c ∈ w, p c = false) →
      jsSplit p (w ++ 45 :: R) = w :: jsSplit p R := by
  intro w
  induction w with
  | nil => intro R _; simp [jsSplit, hp]
  | cons c cs ih =>
    intro R h
    have hc := h c (List.mem_cons_self c cs)
    have := ih R (fun x hx => h x (List.mem_cons_of_mem c hx))
    simp [jsSplit, hc, this]

/-- Splitting inverts the dash join of separator-free words. -/
theorem jsSplit_joinDash : ∀ (w : List Nat) (ws : List (List Nat)),
    (∀ u ∈ w :: ws, ∀ c ∈ u, isSepCh c = false) →
    jsSplit isSepCh (joinDash (w :: ws)) = w :: ws
  | w, [] => fun h => jsSplit_no_sep (h w (List.mem_cons_self w _))
  | w, w' :: ws' => fun h => by
    show jsSplit isSepCh (w ++ 45 :: joinDash (w' :: ws')) = _
    rw [jsSplit_word_dash (by decide) w _ (h w (List.mem_cons_self w _))]
    rw [jsSplit_joinDash w' ws' (fun u hu => h u (List.mem_cons_of_mem w hu))]

/-- Characters of a good word are not separators. -/
theorem goodWord_no_sep {w : List Nat} (h : GoodWord w) :
    ∀ c ∈ w, isSepCh c = false := by
  intro c hc
  rw [← Bool.not_eq_true]
  intro hsep
  have hrange : (97 ≤ c ∧ c ≤ 122) ∨ (48 ≤ c ∧ c ≤ 57) := by
    rcases h.2 c hc with h1 | h1
    · exact Or.inl (isLowerCh_iff.mp h1)
    · exact Or.inr (isDigitCh_iff.mp h1)
  simp only [isSepCh, isSpaceCh, Bool.or_eq_true, decide_eq_true_eq] at hsep
  omega

/-- `toPascalCase` on the dash join of good words capitalises each word. -/
theorem toPascalCase_joinDash {ws : List (List Nat)} (h : GoodWords ws) :
    toPascalCase (joinDash ws) = joinList (ws.map capFirstKeep) := by
  obtain ⟨hne, hgw, -⟩ := h
  cases ws with
  | nil => exact absurd rfl hne
  | cons w ws' =>
    obtain ⟨⟨c, cs, hw, hc⟩, -⟩ := hgw w (List.mem_cons_self w _)
    subst hw
    have hshape : isPascalShape (joinDash ((c :: cs) :: ws')) = false := by
      rw [joinDash_cons_head]
      simp [isPascalShape, lower_not_upper hc]
    unfold toPascalCase
    rw [if_neg (by simp [hshape])]
    rw [jsSplit_joinDash _ _ (fun u hu => goodWord_no_sep (hgw u hu))]
    congr 1
    apply List.map_congr_left
    intro u hu
    apply capLower_eq_capFirstKeep
    intro x hx
    rcases (hgw u hu).2 x hx with h1 | h1
    · exact lower_not_upper h1
    · exact digit_not_upper h1

/-- The concatenation join agrees with `List.join`. -/
theorem joinList_eq_join : ∀ ws : List (List Nat), joinList ws = ws.join := by
  intro ws
  induction ws with
  | nil => rfl
  | cons w ws ih =>
    show w ++ joinList ws = _
    rw [ih]
    rfl

/-- Capitalising the good words yields a PascalCase string. -/
theorem isPascalShape_caps {ws : List (List Nat)} (h : GoodWords ws) :
    isPascalShape (joinList (ws.map capFirstKeep)) = true := by
  obtain ⟨hne, hgw, -⟩ := h
  cases ws with
  | nil => exact absurd rfl hne
  | cons w ws' =>
    obtain ⟨⟨c, cs, hw, hc⟩, hchars⟩ := hgw w (List.mem_cons_self w _)
    subst hw
    show isPascalShape ((upCh c :: cs) ++ joinList (ws'.map capFirstKeep)) = true
    rw [List.cons_append]
    simp only [isPascalShape, Bool.and_eq_true]
    refine ⟨upCh_lower hc, ?_⟩
    rw [List.all_eq_true]
    intro x hx
    rcases List.mem_append.mp hx with h1 | h1
    · rcases hchars x (List.mem_cons_of_mem c h1) with h2 | h2
      · exact alnum_of_lower h2
      · exact alnum_of_digit h2
    · rw [joinList_eq_join] at h1
      obtain ⟨u', hu', hxu⟩ := List.mem_join.mp h1
      obtain ⟨u, hu, rfl⟩ := List.mem_map.mp hu'
      obtain ⟨⟨y, ys, hy, hylow⟩, huchars⟩ := hgw u (List.mem_cons_of_mem _ hu)
      subst hy
      rcases List.mem_cons.mp hxu with h2 | h2
      · subst h2; exact alnum_of_upper (upCh_lower hylow)
      · rcases huchars x (List.mem_cons_of_mem y h2) with h3 | h3
        · exact alnum_of_lower h3
        · exact alnum_of_digit h3

/-- A lowercase-or-digit character is not uppercase. -/
theorem lowdig_not_upper {c : Nat}
    (h : isLowerCh c = true ∨ isDigitCh c = true) : isUpperCh c = false := by
  rcases h with h | h
  · exact lower_not_upper h
  · exact digit_not_upper h

/-- No boundary fires in front of a non-uppercase character. -/
theorem bdry_false_of_b {a b : Nat} {rest : List Nat}
    (hb : isUpperCh b = false) : bdry a b rest = false := by
  simp [bdry, fire1, hb]

/-- The first pass fires between a lowercase/digit and an uppercase letter. -/
theorem bdry_true_junction1 {a b : Nat} {rest : List Nat}
    (ha : isLowerCh a = true ∨ isDigitCh a = true) (hb : isUpperCh b = true) :
    bdry a b rest = true := by
  have hf : fire1 a b = true := by
    rcases ha with h | h <;> simp [fire1, h, hb]
  simp [bdry, hf]

/-- The second pass fires on upper-upper-lower. -/
theorem bdry_true_junction2 {a b z : Nat} {rest : List Nat}
    (ha : isUpperCh a = true) (hb : isUpperCh b = true)
    (hz : isLowerCh z = true) : bdry a b (z :: rest) = true := by
  simp [bdry, ha, hb, hz]

/-- A run of lowercase/digit characters forms a single word. -/
theorem kwRaw_low_run : ∀ (t : List Nat) (b : Nat),
    (isLowerCh b = true ∨ isDigitCh b = true) →
    (∀ c ∈ t, isLowerCh c = true ∨ isDigitCh c = true) →
    kwRaw (b :: t) = [b :: t]
  | [], _ => fun _ _ => rfl
  | c :: r, b => fun _ ht => by
    have hc := ht c (List.mem_cons_self c r)
    have hbd : bdry b c r = false := bdry_false_of_b (lowdig_not_upper hc)
    have hr := kwRaw_low_run r c hc (fun x hx => ht x (List.mem_cons_of_mem c hx))
    rw [kwRaw_cons_nobdry hbd hr]

/-- An uppercase head followed by a lowercase/digit run is a single word. -/
theorem kwRaw_cap_run {t : List Nat} {a : Nat} (ha : isUpperCh a = true)
    (ht : ∀ c ∈ t, isLowerCh c = true ∨ isDigitCh c = true) :
    kwRaw (a :: t) = [a :: t] := by
  cases t with
  | nil => rfl
  | cons b r =>
    have hb := ht b (List.mem_cons_self b r)
    have hbd : bdry a b r = false := bdry_false_of_b (lowdig_not_upper hb)
    rw [kwRaw_cons_nobdry hbd
      (kwRaw_low_run r b hb (fun x hx => ht x (List.mem_cons_of_mem b hx)))]

/-- A lowercase/digit run glued before an uppercase continuation splits exactly
at the junction. -/
theorem kwRaw_low_run_then : ∀ (t : List Nat) (b c : Nat) (R : List Nat),
    isUpperCh c = true →
    (isLowerCh b = true ∨ isDigitCh b = true) →
    (∀ x ∈ t, isLowerCh x = true ∨ isDigitCh x = true) →
    kwRaw (b :: (t ++ c :: R)) = (b :: t) :: kwRaw (c :: R)
  | [], b, c, R => fun hc hb _ => by
    show kwRaw (b :: c :: R) = [b] :: kwRaw (c :: R)
    exact kwRaw_cons_bdry (bdry_true_junction1 hb hc)
  | d :: r, b, c, R => fun hc _ ht => by
    have hd := ht d (List.mem_cons_self d r)
    have hbd : bdry b d (r ++ c :: R) = false := bdry_false_of_b (lowdig_not_upper hd)
    have hrun := kwRaw_low_run_then r d c R hc hd
      (fun x hx => ht x (List.mem_cons_of_mem d hx))
    show kwRaw (b :: d :: (r ++ c :: R)) = (b :: d :: r) :: kwRaw (c :: R)
    rw [kwRaw_cons_nobdry hbd hrun]

/-- A capitalised good word glued before an uppercase continuation splits
exactly at the junction, provided a singleton word is followed by a lowercase
second character. -/
theorem kwRaw_capword_then {w : List Nat} (hw : GoodWord w) {c : Nat}
    {R : List Nat} (hc : isUpperCh c = true)
    (hsing : w.length = 1 → ∃ z t', R = z :: t' ∧ isLowerCh z = true) :
    kwRaw (capFirstKeep w ++ c :: R) = capFirstKeep w :: kwRaw (c :: R) := by
  obtain ⟨⟨y, t, hwe, hy⟩, hchars⟩ := hw
  subst hwe
  cases t with
  | nil =>
    obtain ⟨z, t', hR, hz⟩ := hsing rfl
    subst hR
    show kwRaw (upCh y :: c :: z :: t') = [upCh y] :: kwRaw (c :: z :: t')
    exact kwRaw_cons_bdry (bdry_true_junction2 (upCh_lower hy) hc hz)
  | cons d r =>
    have hd := hchars d (List.mem_cons_of_mem y (List.mem_cons_self d r))
    have hbd : bdry (upCh y) d (r ++ c :: R) = false :=
      bdry_false_of_b (lowdig_not_upper hd)
    have hrun := kwRaw_low_run_then r d c R hc hd
      (fun x hx => hchars x (List.mem_cons_of_mem y (List.mem_cons_of_mem d hx)))
    show kwRaw (upCh y :: d :: (r ++ c :: R)) = (upCh y :: d :: r) :: kwRaw (c :: R)
    rw [kwRaw_cons_nobdry hbd hrun]

/-- The decomposition of the capitalised join of good words recovers exactly
the capitalised words. -/
theorem kwRaw_caps : ∀ ws : List (List Nat), GoodWords ws →
    kwRaw (joinList (ws.map capFirstKeep)) = ws.map capFirstKeep
  | [], h => absurd rfl h.1
  | [w], h => by
    show kwRaw (capFirstKeep w ++ []) = [capFirstKeep w]
    rw [List.append_nil]
    obtain ⟨⟨y, t, hwe, hy⟩, hchars⟩ := h.2.1 w (List.mem_cons_self w [])
    subst hwe
    show kwRaw (upCh y :: t) = [upCh y :: t]
    exact kwRaw_cap_run (upCh_lower hy)
      (fun x hx => hchars x (List.mem_cons_of_mem y hx))
  | w :: w' :: rest, h => by
    obtain ⟨⟨y', t', hw'e, hy'⟩, hchars'⟩ :=
      h.2.1 w' (List.mem_cons_of_mem w (List.mem_cons_self w' rest))
    subst hw'e
    have hrec := kwRaw_caps ((y' :: t') :: rest)
      ⟨List.cons_ne_nil _ _, fun u hu => h.2.1 u (List.mem_cons_of_mem w hu),
        h.2.2.2⟩
    have hgoodw : GoodWord w := h.2.1 w (List.mem_cons_self w _)
    show kwRaw (capFirstKeep w
        ++ (upCh y' :: (t' ++ joinList (rest.map capFirstKeep))))
      = capFirstKeep w :: (upCh y' :: t') :: rest.map capFirstKeep
    rw [kwRaw_capword_then hgoodw (upCh_lower hy') ?_]
    · have heq : kwRaw (upCh y' :: (t' ++ joinList (rest.map capFirstKeep)))
          = (upCh y' :: t') :: rest.map capFirstKeep := hrec
      rw [heq]
    · intro h1
      obtain ⟨yy, zz, tt, heq, hzz⟩ := h.2.2.1 h1
      injection heq with h1' h2'
      refine ⟨zz, tt ++ joinList (rest.map capFirstKeep), ?_, hzz⟩
      rw [h2']
      rfl

/-- Lowercasing undoes the capitalisation of a good word. -/
theorem map_lowCh_capFirstKeep {w : List Nat} (h : GoodWord w) :
    (capFirstKeep w).map lowCh = w := by
  obtain ⟨⟨y, t, hwe, hy⟩, hchars⟩ := h
  subst hwe
  show lowCh (upCh y) :: t.map lowCh = y :: t
  rw [lowCh_upCh hy]
  have hid : ∀ x ∈ t, lowCh x = id x := by
    intro x hx
    rcases hchars x (List.mem_cons_of_mem y hx) with h1 | h1
    · exact lowCh_not_upper (lower_not_upper h1)
    · exact lowCh_not_upper (digit_not_upper h1)
  rw [List.map_congr_left hid, List.map_id]

/-- `toKebabCase` on any PascalCase string is the dash join of the lowered
decomposition. -/
theorem toKebabCase_eq_joinDash2 {s : List Nat} (hp : isPascalShape s = true) :
    toKebabCase s = joinDash ((kwRaw s).map (List.map lowCh)) := by
  cases s with
  | nil => simp [isPascalShape] at hp
  | cons c cs => exact toKebabCase_eq_joinDash hp

/-- Re-kebab-casing the capitalised join of good words yields their dash
join. -/
theorem toKebabCase_caps {ws : List (List Nat)} (h : GoodWords ws) :
    toKebabCase (joinList (ws.map capFirstKeep)) = joinDash ws := by
  rw [toKebabCase_eq_joinDash2 (isPascalShape_caps h), kwRaw_caps ws h,
    List.map_map]
  have hid : ∀ w ∈ ws, (List.map lowCh ∘ capFirstKeep) w = id w :=
    fun w hw => map_lowCh_capFirstKeep (h.2.1 w hw)
  rw [List.map_congr_left hid, List.map_id]

/-- `toPascalCase` keeps a PascalCase string unchanged. -/
theorem toPascalCase_of_shape {s : List Nat} (h : isPascalShape s = true) :
    toPascalCase s = s := by
  unfold toPascalCase
  rw [if_pos h]

/-- On a PascalCase string the round trip evaluates to the capitalised join of
the lowered decomposition. -/
theorem roundTrip_pascal {s : List Nat} (hp : isPascalShape s = true) :
    roundTrip s
      = joinList (((kwRaw s).map (List.map lowCh)).map capFirstKeep) := by
  cases s with
  | nil => simp [isPascalShape] at hp
  | cons c cs =>
    rw [roundTrip, toPascalCase_of_shape hp, toKebabCase_eq_joinDash2 hp]
    exact toPascalCase_joinDash (goodWords_lowered hp)

/-- C8: for every string s already matching the PascalCase shape
[A-Z][a-zA-Z0-9]*, the composite g = toPascalCase ∘ toKebabCase ∘ toPascalCase
is idempotent on s: g (g s) = g s, i.e. the kebab/Pascal round trip is stable
after the first normalization. -/
theorem roundTrip_idempotent_on_pascal (s : List Nat)
    (hp : isPascalShape s = true) :
    roundTrip (roundTrip s) = roundTrip s := by
  cases s with
  | nil => simp [isPascalShape] at hp
  | cons c cs =>
    have hgw := goodWords_lowered hp
    rw [roundTrip_pascal hp, roundTrip, toPascalCase_of_shape (isPascalShape_caps hgw),
      toKebabCase_caps hgw]
    exact toPascalCase_joinDash hgw

set_option maxRecDepth 100000 in
/-- The round-trip idempotence theorem applied at the concrete PascalCase
input "XMLHttpRequest". -/
theorem roundTrip_idempotent_on_pascal_witness :
    isPascalShape (str "XMLHttpRequest") = true ∧
      roundTrip (roundTrip (str "XMLHttpRequest"))
        = roundTrip (str "XMLHttpRequest") :=
  ⟨by decide, roundTrip_idempotent_on_pascal _ (by decide)⟩

end Cquver
